import Mathlib

/-!
Verification of the parameter-addressed persistence layer of the
`persistable` repository: the filename codec (`dict_to_fnsuffix`,
`default_standard_filename`, `parse_standard_filename`), the long-name
guard (`handle_long_fn`, with a full MD5 implementation), the similarity
resolver (`_find_similar_files`, `_load_similar_file`), and the payload
lifecycle (`params_tree`, `persist_filepath`, `load_generate`, `payload`
access, `rename`), shallowly embedded from the Python source.
-/

namespace PersistableSpec

/-- Python values as they occur in persistable parameter dictionaries.
A float literal is modeled by its decimal `repr` text: the codec only ever
renders a float via `repr`, it never computes with it. -/
inductive PyVal where
  | int (n : Int)
  | float (r : String)
  | str (s : String)
  | bool (b : Bool)
  | list (xs : List PyVal)
  | tuple (xs : List PyVal)
  | set (xs : List PyVal)
  | dict (d : List (String × PyVal))

/-- A Python dict (insertion-ordered association list, as Python dicts are). -/
abbrev PyDict := List (String × PyVal)

/-- Lexicographic comparison of char lists by Unicode code point, which is
exactly Python's `str` ordering. -/
def lexLe : List Char → List Char → Bool
  | [], _ => true
  | _ :: _, [] => false
  | a :: as, b :: bs =>
    if a.toNat < b.toNat then true
    else if b.toNat < a.toNat then false
    else lexLe as bs

/-- Python's `<=` on strings. -/
def strLe (a b : String) : Bool := lexLe a.data b.data

/-- Python's default `sorted` comparison restricted to the orderable leaf
values that can occur inside a Python `set`.  CAUTION: this totalizes a
partial operation: Python's `<` raises `TypeError` on mixed or
unorderable element types, which is modeled as `false` here, and a float
is compared by its repr text rather than its numeric value.  `pyLe`
agrees with the source only on type-homogeneous string sets (code-point
order), so every theorem about set rendering restricts set elements to
strings (`allStrElems` inside `goodVal`). -/
def pyLe : PyVal → PyVal → Bool
  | .int a, .int b => a ≤ b
  | .str a, .str b => strLe a b
  | .bool a, .bool b => !a || b
  | .float a, .float b => strLe a b
  | _, _ => false

/-- `pyLe` as a binary relation, for the sorting API. -/
def pyLeR (v w : PyVal) : Prop := pyLe v w = true

instance : DecidableRel pyLeR := fun v w => by unfold pyLeR; infer_instance

/-- Python's `sorted` (a stable sort). -/
def pySorted (xs : List PyVal) : List PyVal := xs.insertionSort pyLeR

/-- `strLe` as a binary relation, for the sorting API. -/
def strLeR (a b : String) : Prop := strLe a b = true

instance : DecidableRel strLeR := fun a b => by unfold strLeR; infer_instance

/-- Ordering of rendered dict entries by their key, Python-string-wise. -/
def entryLeR (p q : String × String) : Prop := strLe p.1 q.1 = true

instance : DecidableRel entryLeR := fun p q => by unfold entryLeR; infer_instance

/-- The decimal digit character for `k < 10`. -/
def digitChar (k : Nat) : Char := Char.ofNat (48 + k)

/-- Decimal digits of `n`, most significant first; `fuel` bounds the
digit count (`n + 1` is always enough). -/
def natDecimal : Nat → Nat → List Char
  | 0, _ => []
  | f + 1, n => if n < 10 then [digitChar n] else natDecimal f (n / 10) ++ [digitChar (n % 10)]

/-- Python's decimal rendering of an `int`: a minus sign for negatives,
then the digits of the absolute value. -/
def intRepr (n : Int) : String :=
  if n < 0 then String.mk ('-' :: natDecimal (n.natAbs + 1) n.natAbs)
  else String.mk (natDecimal (n.toNat + 1) n.toNat)

mutual

/-- Python's `repr`, restricted to the value vocabulary of `PyVal`:
ints print in decimal, floats print their stored repr text, strings print
between single quotes (faithful for strings that contain no quote or
backslash), booleans print `True`/`False`, lists/tuples/sets/dicts print
their elements recursively with `", "` separators; a one-element tuple gets
a trailing comma, the empty set prints `set()`, and a dict prints its pairs
as `'key': value` in insertion order. -/
def pyRepr : PyVal → String
  | .int n => intRepr n
  | .float r => r
  | .str s => "'" ++ s ++ "'"
  | .bool b => if b then "True" else "False"
  | .list xs => "[" ++ pyReprList xs ++ "]"
  | .tuple [x] => "(" ++ pyRepr x ++ ",)"
  | .tuple xs => "(" ++ pyReprList xs ++ ")"
  | .set [] => "set()"
  | .set xs => "\x7b" ++ pyReprList xs ++ "\x7d"
  | .dict d => "\x7b" ++ pyReprDict d ++ "\x7d"

/-- Elements of a list/tuple/set, `", "`-separated, via `pyRepr`. -/
def pyReprList : List PyVal → String
  | [] => ""
  | [x] => pyRepr x
  | x :: xs => pyRepr x ++ ", " ++ pyReprList xs

/-- Pairs of a dict in insertion order, `", "`-separated, via `pyRepr`. -/
def pyReprDict : List (String × PyVal) → String
  | [] => ""
  | [(k, v)] => "'" ++ k ++ "': " ++ pyRepr v
  | (k, v) :: d => "'" ++ k ++ "': " ++ pyRepr v ++ ", " ++ pyReprDict d

end

/-- Python's `str` on a parameter value: identity on strings, `repr`
otherwise (containers stringify via `repr` of their elements, as Python
does). -/
def pyStr : PyVal → String
  | .str s => s
  | v => pyRepr v

/-- Python dict indexing `d[k]` (first binding wins; a Python dict has at
most one binding per key). -/
def pyLookup (k : String) : PyDict → Option PyVal
  | [] => none
  | (k', v) :: d => if k' = k then some v else pyLookup k d

/-- Python `",".join`. -/
def joinComma : List String → String
  | [] => ""
  | [x] => x
  | x :: xs => x ++ "," ++ joinComma xs

mutual

/-- The value rendering of `dict_to_fnsuffix` (util/os_util.py): a Mapping
renders as `"{" + ",".join(key + "=" + render(dict_[key]) for key in
sorted(dict_.keys())) + "}"`, a set renders as `repr(sorted(set))`, and any
other value renders as `repr(value)`.

The source sorts `dict_.keys()` and then renders each `dict_[key]`; since
the rendering of a value does not depend on the sort and a Python dict
binds each key once, this is embedded as: render every `(key, value)` pair
in place (`fnItems`) and then sort the rendered pairs by key with the same
string order. -/
def fnValue : PyVal → String
  | .dict d =>
    "\x7b" ++
      joinComma (((fnItems d).insertionSort entryLeR).map (fun p => p.1 ++ "=" ++ p.2)) ++
      "\x7d"
  | .set xs => pyRepr (.list (pySorted xs))
  | .int n => pyRepr (.int n)
  | .float r => pyRepr (.float r)
  | .str s => pyRepr (.str s)
  | .bool b => pyRepr (.bool b)
  | .list xs => pyRepr (.list xs)
  | .tuple xs => pyRepr (.tuple xs)

/-- The pairs of a dict with their values rendered by `fnValue`, in
insertion order. -/
def fnItems : PyDict → List (String × String)
  | [] => []
  | (k, v) :: d => (k, fnValue v) :: fnItems d

end

/-- `dict_to_fnsuffix` (util/os_util.py, lines 128-157). -/
def dict_to_fnsuffix (d : PyDict) : String := fnValue (.dict d)

example :
    dict_to_fnsuffix [("float_", .float "2.52"), ("list_1", .list [.str "c", .str "b", .int 4])]
      = "\x7bfloat_=2.52,list_1=['c', 'b', 4]\x7d" := by decide

example :
    dict_to_fnsuffix [("test1", .int 2), ("test3", .dict [("a", .int 4), ("b", .list [.str "why", .str "ask"])])]
      = "\x7btest1=2,test3=\x7ba=4,b=['why', 'ask']\x7d\x7d" := by decide

example :
    dict_to_fnsuffix [("set1", .set [.str "el1", .str "el2", .str "another_el"])]
      = "\x7bset1=['another_el', 'el1', 'el2']\x7d" := by decide

/-- The Python exception kinds raised by the persistence layer. -/
inductive PyErr where
  | fileNotFound (msg : String)
  | fileExists (msg : String)
  | osError (msg : String)
  | valueError (msg : String)
  | parseException
  | deserializationError (msg : String)
  | typeError (msg : String)
  deriving DecidableEq

deriving instance DecidableEq for Except

/-- Whether an exception is a `FileNotFoundError` (the only kind
`load_generate`'s `except FileNotFoundError` clause catches). -/
def PyErr.isFileNotFound : PyErr → Bool
  | .fileNotFound _ => true
  | _ => false

/-- `SHORTEN_PARAM_MAP` (util/os_util.py). -/
def SHORTEN_PARAM_MAP : List (String × String) :=
  [("random_state", "rndst"), ("datasource", "dsrc"), ("datafilespath", "dfpath"),
   ("experimentname", "exname"), ("datasetname", "dsname"), ("concat_pulses", "ccps"),
   ("samplesize", "ssz")]

/-- Association-list lookup on string keys (Python `dict.get`). -/
def strAssoc (k : String) : List (String × String) → Option String
  | [] => none
  | (k', v) :: l => if k' = k then some v else strAssoc k l

/-- `shorten_param_map.get(k, k)`. -/
def shortenKey (k : String) : String := (strAssoc k SHORTEN_PARAM_MAP).getD k

/-- The key map `parse_standard_filename` applies to decoded params: the
same `SHORTEN_PARAM_MAP.get(k, k)` (the map is not inverted, so an
already-shortened key is returned unchanged; the source notes that
"parameter shortening is not reverted automatically"). -/
def unshortenKey (k : String) : String := shortenKey k

mutual

/-- `recursive_key_map` (util/dict.py) on a value: a Mapping value is
rebuilt with mapped keys, any other value is kept. -/
def recKeyMapVal (f : String → String) : PyVal → PyVal
  | .dict d => .dict (recKeyMap f d)
  | .int n => .int n
  | .float r => .float r
  | .str s => .str s
  | .bool b => .bool b
  | .list xs => .list xs
  | .tuple xs => .tuple xs
  | .set xs => .set xs

/-- `recursive_key_map` (util/dict.py): apply `f` to the keys of a dict at
every nesting level of dict-valued entries. -/
def recKeyMap (f : String → String) : PyDict → PyDict
  | [] => []
  | (k, v) :: d => (f k, recKeyMapVal f v) :: recKeyMap f d

end

mutual

/-- `_convert_listlike_fn_params` (util/os_util.py) on a value: a dict is
rebuilt recursively; every other value is copied unchanged (the function's
non-dict branch assigns `fn_params[key]` verbatim). -/
def convertListlikeVal : PyVal → PyVal
  | .dict d => .dict (_convert_listlike_fn_params d)
  | .int n => .int n
  | .float r => .float r
  | .str s => .str s
  | .bool b => .bool b
  | .list xs => .list xs
  | .tuple xs => .tuple xs
  | .set xs => .set xs

/-- `_convert_listlike_fn_params` (util/os_util.py). -/
def _convert_listlike_fn_params : PyDict → PyDict
  | [] => []
  | (k, v) :: d => (k, convertListlikeVal v) :: _convert_listlike_fn_params d

end

/-- Python `k in fn_params` (top-level key membership). -/
def hasKey (k : String) (d : PyDict) : Bool := (pyLookup k d).isSome

/-- Python `c in s` for a single character. -/
def hasChar (c : Char) (s : String) : Bool := s.data.contains c

/-- The extension normalization of `default_standard_filename`: default
`"pkl"`, and prefix a dot when the extension does not start with one. -/
def normExt (fn_ext : Option String) : String :=
  let ext0 := fn_ext.getD "pkl"
  match ext0.data with
  | '.' :: _ => ext0
  | _ => "." ++ ext0

/-- `default_standard_filename` (util/os_util.py, lines 22-62): defaults
the extension to `"pkl"` and prefixes a dot when missing; raises
`ValueError` when a parameter name and its shortened form are both
present; renders `fn_type + dict_to_fnsuffix(shortened params) + ext`; and
raises `OSError` when the rendered filename contains `<` or `>` (checked
in that order). `/` is not checked here. -/
def default_standard_filename (fn_type : String) (fn_ext : Option String)
    (fn_params : PyDict) : Except PyErr String :=
  let ext := normExt fn_ext
  if SHORTEN_PARAM_MAP.any (fun p => hasKey p.1 fn_params && hasKey p.2 fn_params) then
    .error (.valueError "You use both long and short version of a parameter name")
  else
    let fn := fn_type ++
      dict_to_fnsuffix (_convert_listlike_fn_params (recKeyMap shortenKey fn_params)) ++ ext
    if hasChar '<' fn then
      .error (.osError "forbidden char < in filename")
    else if hasChar '>' fn then
      .error (.osError "forbidden char > in filename")
    else
      .ok fn

/-- `PersistableOld._validate_params` (base.py, lines 499-502): walk the
top-level items in order and raise `ValueError` at the first value whose
`str` contains a `/`. -/
def _validate_params : PyDict → Except PyErr Unit
  | [] => .ok ()
  | (_, v) :: d =>
    if hasChar '/' (pyStr v) then
      .error (.valueError "Parameter contained at least one slash")
    else
      _validate_params d

/-!  MD5 (RFC 1321), as used by `handle_long_fn` via `hashlib.md5`.
Machine words are `Nat`s reduced mod `2 ^ 32` at every step. -/

/-- The 64 MD5 sine-derived constants `floor(abs(sin(i+1)) * 2^32)`. -/
def md5K : List Nat :=
  [0xd76aa478, 0xe8c7b756, 0x242070db, 0xc1bdceee, 0xf57c0faf, 0x4787c62a, 0xa8304613, 0xfd469501,
   0x698098d8, 0x8b44f7af, 0xffff5bb1, 0x895cd7be, 0x6b901122, 0xfd987193, 0xa679438e, 0x49b40821,
   0xf61e2562, 0xc040b340, 0x265e5a51, 0xe9b6c7aa, 0xd62f105d, 0x02441453, 0xd8a1e681, 0xe7d3fbc8,
   0x21e1cde6, 0xc33707d6, 0xf4d50d87, 0x455a14ed, 0xa9e3e905, 0xfcefa3f8, 0x676f02d9, 0x8d2a4c8a,
   0xfffa3942, 0x8771f681, 0x6d9d6122, 0xfde5380c, 0xa4beea44, 0x4bdecfa9, 0xf6bb4b60, 0xbebfbc70,
   0x289b7ec6, 0xeaa127fa, 0xd4ef3085, 0x04881d05, 0xd9d4d039, 0xe6db99e5, 0x1fa27cf8, 0xc4ac5665,
   0xf4292244, 0x432aff97, 0xab9423a7, 0xfc93a039, 0x655b59c3, 0x8f0ccc92, 0xffeff47d, 0x85845dd1,
   0x6fa87e4f, 0xfe2ce6e0, 0xa3014314, 0x4e0811a1, 0xf7537e82, 0xbd3af235, 0x2ad7d2bb, 0xeb86d391]

/-- The MD5 per-round left-rotation amounts. -/
def md5S : List Nat :=
  [7, 12, 17, 22, 7, 12, 17, 22, 7, 12, 17, 22, 7, 12, 17, 22,
   5, 9, 14, 20, 5, 9, 14, 20, 5, 9, 14, 20, 5, 9, 14, 20,
   4, 11, 16, 23, 4, 11, 16, 23, 4, 11, 16, 23, 4, 11, 16, 23,
   6, 10, 15, 21, 6, 10, 15, 21, 6, 10, 15, 21, 6, 10, 15, 21]

/-- UTF-8 encoding of one character (Python `str.encode()`). -/
def charUtf8 (c : Char) : List Nat :=
  let n := c.toNat
  if n < 0x80 then [n]
  else if n < 0x800 then [0xc0 + n / 64, 0x80 + n % 64]
  else if n < 0x10000 then [0xe0 + n / 4096, 0x80 + n / 64 % 64, 0x80 + n % 64]
  else [0xf0 + n / 262144, 0x80 + n / 4096 % 64, 0x80 + n / 64 % 64, 0x80 + n % 64]

/-- UTF-8 bytes of a string (Python `str.encode()`). -/
def utf8Bytes (s : String) : List Nat := s.data.flatMap charUtf8

/-- `k` little-endian bytes of `n`. -/
def leBytes : Nat → Nat → List Nat
  | 0, _ => []
  | k + 1, n => n % 256 :: leBytes k (n / 256)

/-- MD5 padding: append `0x80`, zero-fill to 56 mod 64, then the 8-byte
little-endian bit length. -/
def md5Pad (msg : List Nat) : List Nat :=
  msg ++ [0x80] ++ List.replicate ((119 - msg.length % 64) % 64) 0 ++
    leBytes 8 (8 * msg.length % 2 ^ 64)

/-- Split into 64-byte chunks (`fuel` bounds the recursion; it is called
with the list's length, which suffices since every step strictly shortens
a nonempty list). -/
def chunks64 : Nat → List Nat → List (List Nat)
  | 0, _ => []
  | _ + 1, [] => []
  | fuel + 1, l@(_ :: _) => l.take 64 :: chunks64 fuel (l.drop 64)

/-- Little-endian 32-bit word `j` of a chunk. -/
def leWord (chunk : List Nat) (j : Nat) : Nat :=
  chunk.getD (4 * j) 0 + 256 * chunk.getD (4 * j + 1) 0 +
    65536 * chunk.getD (4 * j + 2) 0 + 16777216 * chunk.getD (4 * j + 3) 0

/-- Left rotation within 32 bits. -/
def rotl32 (x n : Nat) : Nat := (x <<< n) % 2 ^ 32 ||| x >>> (32 - n)

/-- One of the 64 MD5 mixing steps. -/
def md5Step (M : Nat → Nat) (st : Nat × Nat × Nat × Nat) (i : Nat) : Nat × Nat × Nat × Nat :=
  let (a, b, c, d) := st
  let mask := 2 ^ 32 - 1
  let f :=
    if i < 16 then b &&& c ||| (mask ^^^ b) &&& d
    else if i < 32 then d &&& b ||| (mask ^^^ d) &&& c
    else if i < 48 then b ^^^ c ^^^ d
    else c ^^^ (b ||| (mask ^^^ d))
  let g :=
    if i < 16 then i
    else if i < 32 then (5 * i + 1) % 16
    else if i < 48 then (3 * i + 5) % 16
    else 7 * i % 16
  let bNew := (b + rotl32 ((a + f + md5K.getD i 0 + M g) % 2 ^ 32) (md5S.getD i 0)) % 2 ^ 32
  (d, bNew, b, c)

/-- Process one 64-byte chunk. -/
def md5Chunk (st : Nat × Nat × Nat × Nat) (chunk : List Nat) : Nat × Nat × Nat × Nat :=
  let (a0, b0, c0, d0) := st
  let (a, b, c, d) := (List.range 64).foldl (md5Step (leWord chunk)) (a0, b0, c0, d0)
  ((a0 + a) % 2 ^ 32, (b0 + b) % 2 ^ 32, (c0 + c) % 2 ^ 32, (d0 + d) % 2 ^ 32)

/-- One lowercase hex digit. -/
def hexDigit (n : Nat) : Char :=
  if n < 10 then Char.ofNat (48 + n) else Char.ofNat (87 + n)

/-- A byte as two lowercase hex digits. -/
def byteHex (b : Nat) : List Char := [hexDigit (b / 16 % 16), hexDigit (b % 16)]

/-- A 32-bit word as 8 hex digits, little-endian byte order. -/
def wordHexLE (w : Nat) : List Char := ((leBytes 4 w).map byteHex).flatten

/-- `hashlib.md5(s.encode()).hexdigest()`. -/
def md5hex (s : String) : String :=
  let msg := utf8Bytes s
  let padded := md5Pad msg
  let (a, b, c, d) :=
    (chunks64 padded.length padded).foldl md5Chunk
      (0x67452301, 0xefcdab89, 0x98badcfe, 0x10325476)
  String.mk (wordHexLE a ++ wordHexLE b ++ wordHexLE c ++ wordHexLE d)

example : md5hex "" = "d41d8cd98f00b204e9800998ecf8427e" := by decide

example : md5hex "abc" = "900150983cd24fb0d6963f7d28e17f72" := by decide

/-- Python `fn.split('.')` on the char level. -/
def splitOnChar (c : Char) : List Char → List (List Char)
  | [] => [[]]
  | x :: xs =>
    match splitOnChar c xs, decide (x = c) with
    | r, true => [] :: r
    | [], false => [[x]]
    | h :: t, false => (x :: h) :: t

/-- The `str(workingdatapath / fn)` path join, modeled as a `/`-separated
string concatenation. -/
def pathJoin (dir fn : String) : String := dir ++ "/" ++ fn

/-- `handle_long_fn` (util/os_util.py, lines 65-106): when the filename
exceeds 255 characters, or the joined path exceeds 259 characters, or
`force_long` is set, return `true` with
`fn_type + "_truncatedHash(" + md5(fn) + ")" + "." + last dot-component of
fn` and the sidecar name `fn_type + "_truncatedHash(" + md5(fn) + ")" +
".params"`; otherwise return `false` with the filename unchanged and no
sidecar. -/
def handle_long_fn (fn fn_type workingdatapath : String) (force_long : Bool) :
    Bool × String × Option String :=
  if 255 < fn.length || 259 < (pathJoin workingdatapath fn).length || force_long then
    let fn_ext := String.mk ((splitOnChar '.' fn.data).getLastD [])
    let fn_hashed_name := fn_type ++ "_truncatedHash(" ++ md5hex fn ++ ")"
    (true, fn_hashed_name ++ "." ++ fn_ext, some (fn_hashed_name ++ ".params"))
  else
    (false, fn, none)

/-- Modelled from the spec: `_fn_to_paramsfn` is imported from
`util.os_util` by persistload.py but its definition is missing from the
source tree; per the spec the params sidecar of a hashed artifact file is
`<hashed_name>.params`, so this replaces the filename's last dot-extension
with `.params`. -/
def _fn_to_paramsfn (fn : String) : String :=
  match (splitOnChar '.' fn.data).dropLast with
  | [] => fn ++ ".params"
  | parts => String.intercalate "." (parts.map String.mk) ++ ".params"

/-!  The filename-suffix grammar of `_construct_fnsuffix_parser`
(util/os_util.py, lines 171-185), embedded as a deterministic
recursive-descent parser over `List Char`.  A `value` tries, in the
grammar's alternation order: a quoted string, a brace dictionary, a
bracketed collection (`[`, `(` or `{` — the three `Combine`d
`delimitedList`s, reached for `{` only when the dictionary alternative
fails), and finally a bare atom optionally continued by an adjacent value
(`Combine(atom + value)`).  Whitespace is skipped where pyparsing's
default skipping applies (before a value, a key, `=`, `,`, `}`) and not
inside the `Combine`d collections (between an element and the following
`,` or closing bracket), and the `Combine`d token of a collection joins
the matched pieces without the skipped whitespace. -/

/-- Parsed parameter values: decode leaves values as unevaluated strings;
only the brace-dictionary structure is reconstructed. -/
inductive Pval where
  | str (s : String)
  | dict (d : List (String × Pval))

/-- The atom character class `[^=,{}()[\]]`. -/
def isAtomChar (c : Char) : Bool :=
  !(c = '=' || c = ',' || c = '\x7b' || c = '\x7d' || c = '(' || c = ')' || c = '[' || c = ']')

/-- pyparsing's default skippable whitespace. -/
def isSpaceChar (c : Char) : Bool := c = ' ' || c = '\t' || c = '\n' || c = '\r'

/-- Skip leading whitespace. -/
def skipSpaces (l : List Char) : List Char := l.dropWhile isSpaceChar

/-- `\w` (ASCII word character, as in the key regex `\w*`). -/
def isWordChar (c : Char) : Bool := c.isAlphanum || c = '_'

/-- `pp.Regex(r"[^=,{}()[\]]+")`: longest nonempty run of atom characters. -/
def parseAtom (l : List Char) : Option (List Char × List Char) :=
  match l.takeWhile isAtomChar with
  | [] => none
  | t => some (t, l.dropWhile isAtomChar)

/-- Body of a quoted string with backslash escapes, up to the closing
quote `q`; returns the body (escapes kept verbatim) and the rest. -/
def quotedBody (q : Char) : List Char → Option (List Char × List Char)
  | [] => none
  | c :: cs =>
    if c = q then some ([], cs)
    else if c = '\\' then
      match cs with
      | [] => none
      | e :: cs' => (quotedBody q cs').map (fun p => (c :: e :: p.1, p.2))
    else (quotedBody q cs).map (fun p => (c :: p.1, p.2))

/-- `pp.quotedString`: a single- or double-quoted string; the token keeps
its quotes, as pyparsing's does. -/
def parseQuoted (l : List Char) : Option (List Char × List Char) :=
  match l with
  | q :: rest =>
    if q = '\'' || q = '"' then
      (quotedBody q rest).map (fun p => (q :: p.1 ++ [q], p.2))
    else none
  | [] => none

/-- First binding on a `Pval` association list (`d[k]`). -/
def pvalLookup (k : String) : List (String × Pval) → Option Pval
  | [] => none
  | (k', v) :: d => if k' = k then some v else pvalLookup k d

/-- Python dict insertion `d[k] = v`: overwrite in place or append. -/
def pyUpsert (k : String) (v : Pval) : List (String × Pval) → List (String × Pval)
  | [] => [(k, v)]
  | (k', v') :: l => if k' = k then (k', v) :: l else (k', v') :: pyUpsert k v l

/-- pyparsing's `Dict` result as a Python dict (`asDict()`): successive
bindings of the same key overwrite, keeping the first insertion point. -/
def asDict (l : List (String × Pval)) : List (String × Pval) :=
  l.foldl (fun acc p => pyUpsert p.1 p.2 acc) []

/-- The closing bracket matching an opening one. -/
def closingOf (c : Char) : Char :=
  if c = '[' then ']' else if c = '(' then ')' else '\x7d'

mutual

/-- One `value` of the suffix grammar: returns the parsed value, the text
pyparsing's `Combine` would join for it (keys and leaf tokens, without
suppressed delimiters and skipped whitespace), and the remaining input.
`fuel` bounds the recursion depth; every cycle of the grammar consumes at
least one character, so any fuel past twice the input length is enough. -/
def parseValue : Nat → List Char → Option (Pval × List Char × List Char)
  | 0, _ => none
  | fuel + 1, l =>
    let l := skipSpaces l
    match parseQuoted l with
    | some (tok, r) => some (.str (String.mk tok), tok, r)
    | none =>
      match parseDict fuel l with
      | some (d, text, r) => some (.dict d, text, r)
      | none =>
        match parseBracketed fuel l with
        | some (tok, r) => some (.str (String.mk tok), tok, r)
        | none =>
          match parseAtom l with
          | none => none
          | some (t, r) =>
            match parseValue fuel r with
            | some (_, vtext, r') => some (.str (String.mk (t ++ vtext)), t ++ vtext, r')
            | none => some (.str (String.mk t), t, r)

/-- `dict_ = Suppress("{") + delimitedList(item) + Suppress("}")` with
`item = Dict(Group(key + Suppress("=") + value))`. -/
def parseDict : Nat → List Char → Option (List (String × Pval) × List Char × List Char)
  | 0, _ => none
  | fuel + 1, l =>
    match skipSpaces l with
    | '\x7b' :: r =>
      match parseItems fuel r with
      | some (items, text, r') => some (asDict items, text, r')
      | none => none
    | _ => none

/-- The items of a brace dictionary: `key = value`, `,`-separated, closed
by `}`. -/
def parseItems : Nat → List Char → Option (List (String × Pval) × List Char × List Char)
  | 0, _ => none
  | fuel + 1, l =>
    let l1 := skipSpaces l
    let key := l1.takeWhile isWordChar
    match skipSpaces (l1.dropWhile isWordChar) with
    | '=' :: r =>
      match parseValue fuel r with
      | some (v, vtext, r1) =>
        match skipSpaces r1 with
        | ',' :: r2 =>
          match parseItems fuel r2 with
          | some (items, text, r3) =>
            some ((String.mk key, v) :: items, key ++ vtext ++ text, r3)
          | none => none
        | '\x7d' :: r2 => some ([(String.mk key, v)], key ++ vtext, r2)
        | _ => none
      | none => none
    | _ => none

/-- One of the `Combine`d collections `list_`, `tuple_`, `set_`:
an opening bracket, a `delimitedList(value, combine=True)` and the
matching closing bracket, joined into one token. -/
def parseBracketed : Nat → List Char → Option (List Char × List Char)
  | 0, _ => none
  | fuel + 1, l =>
    match l with
    | b :: r =>
      if b = '[' || b = '(' || b = '\x7b' then
        match parseElems fuel (closingOf b) r with
        | some (text, r') => some (b :: text, r')
        | none => none
      else none
    | [] => none

/-- The elements of a `Combine`d collection up to (and including) the
closing bracket `close`; no whitespace skipping between an element and
the `,` or closing bracket that follows it. -/
def parseElems : Nat → Char → List Char → Option (List Char × List Char)
  | 0, _, _ => none
  | fuel + 1, close, l =>
    match parseValue fuel l with
    | some (_, vtext, r) =>
      match r with
      | ',' :: r2 =>
        match parseElems fuel close r2 with
        | some (text, r3) => some (vtext ++ ',' :: text, r3)
        | none => none
      | c :: r2 => if c = close then some (vtext ++ [close], r2) else none
      | [] => none
    | none => none

end

/-- `fnsuffix_to_dict` (util/os_util.py, lines 192-205): the empty string
decodes to the empty dict; otherwise the suffix must parse as
`dict_ + StringEnd()`, else a `ParseException` is raised. -/
def fnsuffix_to_dict (s : String) : Except PyErr (List (String × Pval)) :=
  if s.data.isEmpty then .ok []
  else
    match parseDict (2 * s.data.length + 4) s.data with
    | some (d, _, rest) =>
      if (skipSpaces rest).isEmpty then .ok d else .error .parseException
    | none => .error .parseException

mutual

/-- `recursive_key_map` over a parsed value (the un-shortening pass of
`parse_standard_filename`). -/
def pvalKeyMapVal (f : String → String) : Pval → Pval
  | .str s => .str s
  | .dict d => .dict (pvalKeyMap f d)

/-- `recursive_key_map` over a parsed dict. -/
def pvalKeyMap (f : String → String) : List (String × Pval) → List (String × Pval)
  | [] => []
  | (k, v) :: d => (f k, pvalKeyMapVal f v) :: pvalKeyMap f d

end

/-- Index of the first occurrence of `c` (Python `find`, as an `Option`). -/
def firstIdxOf (c : Char) : List Char → Option Nat
  | [] => none
  | x :: xs => if x = c then some 0 else (firstIdxOf c xs).map (· + 1)

/-- Index of the last occurrence of `c` (Python `rfind`, as an `Option`). -/
def lastIdxOf (c : Char) : List Char → Option Nat
  | [] => none
  | x :: xs =>
    match lastIdxOf c xs with
    | some i => some (i + 1)
    | none => if x = c then some 0 else none

/-- Python `fn.split("{}")`: split on each non-overlapping occurrence of
the two-character substring. -/
def splitOnBracePair : List Char → List (List Char)
  | [] => [[]]
  | '\x7b' :: '\x7d' :: rest => [] :: splitOnBracePair rest
  | c :: rest =>
    match splitOnBracePair rest with
    | [] => [[c]]
    | h :: t => (c :: h) :: t

/-- `parse_standard_filename` (util/os_util.py, lines 208-237): find the
first `{` and the position one past the last `}`.  With no braces, split
at the last `.` (Python's `rfind` returns `-1` when there is no dot, so
the name is everything but the last character and the extension the last
character, exactly as `fn[:-1]`/`fn[-1:]` slice).  When the braces are
adjacent (`{}`), split on `"{}"` and return empty params.  Otherwise the
name is the text before the first `{`, the extension the text after the
last `}` (with its leading dot), and the suffix text between them is
grammar-parsed and its keys un-shortened. -/
def parse_standard_filename (fn : String) :
    Except PyErr (String × String × List (String × Pval)) :=
  let l := fn.data
  match firstIdxOf '\x7b' l, lastIdxOf '\x7d' l with
  | some a, some bm =>
    let b := bm + 1
    if a + 2 = b then
      match splitOnBracePair l with
      | p0 :: p1 :: _ => .ok (String.mk p0, String.mk p1, [])
      | _ => .error .parseException
    else
      match fnsuffix_to_dict (String.mk ((l.drop a).take (b - a))) with
      | .error e => .error e
      | .ok d =>
        .ok (String.mk (l.take a), String.mk (l.drop b), pvalKeyMap unshortenKey d)
  | _, _ =>
    match lastIdxOf '.' l with
    | some c => .ok (String.mk (l.take c), String.mk (l.drop c), [])
    | none => .ok (String.mk (l.take (l.length - 1)), String.mk (l.drop (l.length - 1)), [])

/-!  The similarity resolver (`PersistLoadWithParameters`, persistload.py). -/

/-- Association-list lookup by string key (generic). -/
def alookup {α : Type} (k : String) : List (String × α) → Option α
  | [] => none
  | (k', v) :: l => if k' = k then some v else alookup k l

/-- Association-list insertion, overwriting in place (generic). -/
def aupsert {α : Type} (k : String) (v : α) : List (String × α) → List (String × α)
  | [] => [(k, v)]
  | (k', v') :: l => if k' = k then (k', v) :: l else (k', v') :: aupsert k v l

/-- Association-list key removal (first occurrence, generic). -/
def aremove {α : Type} (k : String) : List (String × α) → List (String × α)
  | [] => []
  | (k', v) :: l => if k' = k then l else (k', v) :: aremove k l

mutual

/-- `recursive_value_map(lambda val: repr(val).replace(" ", ""), fn_params)`
on a value: a Mapping keeps its structure, any other value becomes its
space-stripped `repr` text. -/
def compareVal : PyVal → Pval
  | .dict d => .dict (compareDict d)
  | .int n => .str (String.mk ((pyRepr (.int n)).data.filter (fun c => c ≠ ' ')))
  | .float r => .str (String.mk ((pyRepr (.float r)).data.filter (fun c => c ≠ ' ')))
  | .str s => .str (String.mk ((pyRepr (.str s)).data.filter (fun c => c ≠ ' ')))
  | .bool b => .str (String.mk ((pyRepr (.bool b)).data.filter (fun c => c ≠ ' ')))
  | .list xs => .str (String.mk ((pyRepr (.list xs)).data.filter (fun c => c ≠ ' ')))
  | .tuple xs => .str (String.mk ((pyRepr (.tuple xs)).data.filter (fun c => c ≠ ' ')))
  | .set xs => .str (String.mk ((pyRepr (.set xs)).data.filter (fun c => c ≠ ' ')))

/-- `recursive_value_map(lambda val: repr(val).replace(" ", ""), ...)` on a
dict: the `compare_fn_dict` of `_find_similar_files`. -/
def compareDict : PyDict → List (String × Pval)
  | [] => []
  | (k, v) :: d => (k, compareVal v) :: compareDict d

end

/-- Find and remove the first binding of `k` (used to realize Python's
order-insensitive dict equality). -/
def extractKey (k : String) : List (String × Pval) → Option (Pval × List (String × Pval))
  | [] => none
  | (k', v) :: l =>
    if k' = k then some (v, l)
    else (extractKey k l).map (fun p => (p.1, (k', v) :: p.2))

mutual

/-- Python `==` on parsed values: strings compare as strings, dicts
compare key-set-wise with recursively equal values (insertion order is
irrelevant), and a string never equals a dict. -/
def pvalEq : Pval → Pval → Bool
  | .str a, .str b => a = b
  | .dict a, .dict b => pvalDictEq a b
  | _, _ => false

/-- Python `==` on parsed dicts (each side a genuine dict: one binding per
key): every binding of the left side is matched and removed from the right
side, which must end empty. -/
def pvalDictEq : List (String × Pval) → List (String × Pval) → Bool
  | [], b => b.isEmpty
  | (k, v) :: a, b =>
    match extractKey k b with
    | some (w, b') => pvalEq v w && pvalDictEq a b'
    | none => false

end

/-- The candidate test of `_find_similar_files`:
`all(file_fn_dict[k] == compare_fn_dict[k] for k in compare_fn_dict)`,
where a missing key raises `KeyError` and the file is skipped. -/
def subsetMatch (cmp file : List (String × Pval)) : Bool :=
  cmp.all (fun p =>
    match pvalLookup p.1 file with
    | some w => pvalEq w p.2
    | none => false)

/-- `_find_similar_files` (persistload.py, lines 252-297): render the
requested params as space-stripped reprs, then keep every directory file
whose name parses (a `ParseException` skips the file), whose decoded name
equals `fn_type`, and whose decoded params bind every requested key to an
equal rendered value. -/
def _find_similar_files (fn_type : String) (fn_params : PyDict)
    (dir_files : List String) : List String :=
  let compare_fn_dict := compareDict fn_params
  dir_files.filter (fun fn =>
    match parse_standard_filename fn with
    | .error _ => false
    | .ok (file_fn_type, _, file_fn_dict) =>
      fn_type = file_fn_type && subsetMatch compare_fn_dict file_fn_dict)

/-- `_load_similar_file` (persistload.py, lines 234-250): exactly one
candidate loads it; more than one raises
`FileNotFoundError("Not enough parameters specified, ...")`; none raises
`FileNotFoundError("No similar models found")`.  The working directory is
a filename-to-content map whose key list is the `glob('*')` listing. -/
def _load_similar_file {α : Type} (fs : List (String × α)) (fn_type : String)
    (fn_params : PyDict) : Except PyErr α :=
  let similar := _find_similar_files fn_type fn_params (fs.map Prod.fst)
  match similar with
  | [fp] =>
    match alookup fp fs with
    | some v => .ok v
    | none => .error (.fileNotFound fp)
  | [] => .error (.fileNotFound "No similar models found")
  | _ => .error (.fileNotFound "Not enough parameters specified, found more than one related model")

/-- `_load_helper` (persistload.py, lines 187-232): try the exact file,
then the unhashed legacy name, then the similarity resolver. -/
def _load_helper {α : Type} (fs : List (String × α))
    (payload_fn unhashed_fn fn_type : String) (fn_params : PyDict) : Except PyErr α :=
  match alookup payload_fn fs with
  | some v => .ok v
  | none =>
    match alookup unhashed_fn fs with
    | some v => .ok v
    | none => _load_similar_file fs fn_type fn_params

/-- `PersistLoadWithParameters.get_fn` (persistload.py, lines 159-185). -/
def get_fn (workingdatapath fn_type : String) (fn_params : PyDict)
    (fn_ext : Option String) : Except PyErr (String × String × Bool) := do
  let original_fn ← default_standard_filename fn_type fn_ext fn_params
  let (is_hashed, payload_fn, _) := handle_long_fn original_fn fn_type workingdatapath false
  return (payload_fn, original_fn, is_hashed)

/-- `PersistLoadWithParameters.load` (persistload.py, lines 92-97). -/
def PL_load {α : Type} (fs : List (String × α)) (workingdatapath fn_type : String)
    (fn_params : PyDict) (fn_ext : Option String) : Except PyErr α := do
  let (payload_fn, unhashed_fn, _) ← get_fn workingdatapath fn_type fn_params fn_ext
  _load_helper fs payload_fn unhashed_fn fn_type fn_params

/-- `load_generate` (base.py, lines 131-143 and 424-436): run `load`; on
`FileNotFoundError` — and only then — fall back to `generate`.  The
outcome pairs the payload with a flag telling whether the generate
fallback ran. -/
def load_generate {α : Type} (loadResult : Except PyErr α) (generated : α) :
    Except PyErr (α × Bool) :=
  match loadResult with
  | .ok v => .ok (v, false)
  | .error e => if e.isFileNotFound then .ok (generated, true) else .error e

/-!  Python `==` on parameter values, for `rename`'s
`old_fn_params == new_fn_params` check. -/

/-- Find and remove the first binding of `k` on a `PyVal` association
list (helper realizing Python's order-insensitive dict equality). -/
def extractPyKey (k : String) : PyDict → Option (PyVal × PyDict)
  | [] => none
  | (k', v) :: l =>
    if k' = k then some (v, l)
    else (extractPyKey k l).map (fun p => (p.1, (k', v) :: p.2))

/-- Remove the first element satisfying `p` (helper realizing Python's
order-insensitive set equality). -/
def extractFirst {α : Type} (p : α → Bool) : List α → Option (List α)
  | [] => none
  | y :: ys =>
    if p y then some ys
    else (extractFirst p ys).map (fun l => y :: l)

mutual

/-- Syntactic equality of parameter values.  It is used for matching the
elements of a Python set: set elements are hashable (ints, strings,
bools, floats, tuples of hashables — never dicts or sets), and on those
Python's `==` coincides with syntactic equality of this embedding. -/
def pyBeq : PyVal → PyVal → Bool
  | .int a, .int b => a = b
  | .float a, .float b => a = b
  | .str a, .str b => a = b
  | .bool a, .bool b => a = b
  | .list a, .list b => pyBeqList a b
  | .tuple a, .tuple b => pyBeqList a b
  | .set a, .set b => pyBeqList a b
  | .dict a, .dict b => pyBeqDict a b
  | _, _ => false

/-- Elementwise syntactic equality. -/
def pyBeqList : List PyVal → List PyVal → Bool
  | [], [] => true
  | x :: xs, y :: ys => pyBeq x y && pyBeqList xs ys
  | _, _ => false

/-- Pairwise syntactic equality of dict bindings. -/
def pyBeqDict : PyDict → PyDict → Bool
  | [], [] => true
  | (k, v) :: a, (k', w) :: b => (k = k' : Bool) && pyBeq v w && pyBeqDict a b
  | _, _ => false

end

mutual

/-- Python `==` on parameter values: same-type leaves compare by value (a
float by its repr text, standing in for numeric equality; Python's
bool-int cross equality is not exercised by this code and not modeled),
lists and tuples compare elementwise, sets compare as multisets, dicts
compare key-set-wise. -/
def pyEq : PyVal → PyVal → Bool
  | .int a, .int b => a = b
  | .float a, .float b => a = b
  | .str a, .str b => a = b
  | .bool a, .bool b => a = b
  | .list a, .list b => pyEqList a b
  | .tuple a, .tuple b => pyEqList a b
  | .set a, .set b => pyEqSet a b
  | .dict a, .dict b => pyEqDict a b
  | _, _ => false

/-- Elementwise Python `==` on sequences. -/
def pyEqList : List PyVal → List PyVal → Bool
  | [], [] => true
  | x :: xs, y :: ys => pyEq x y && pyEqList xs ys
  | _, _ => false

/-- Python `==` on sets: equal as multisets of `pyEq`-equal elements. -/
def pyEqSet : List PyVal → List PyVal → Bool
  | [], b => b.isEmpty
  | x :: xs, b =>
    match extractFirst (fun y => pyBeq x y) b with
    | some b' => pyEqSet xs b'
    | none => false

/-- Python `==` on dicts. -/
def pyEqDict : PyDict → PyDict → Bool
  | [], b => b.isEmpty
  | (k, v) :: a, b =>
    match extractPyKey k b with
    | some (w, b') => pyEq v w && pyEqDict a b'
    | none => false

end

/-- Contents of a file in the working directory: a serialized payload
(identified by an opaque tag) or the text of a params sidecar. -/
inductive FileData where
  | blob (tag : Nat)
  | text (s : String)
  deriving DecidableEq

/-- `PersistLoadWithParameters.rename` (persistload.py, lines 99-157):
when old and new params are `==`-equal and old and new types are equal,
log and return with no filesystem effect; otherwise compute both
filenames, refuse with `FileExistsError` if the new file exists, move
(`delete_old`) or copy the payload file, unlink the old sidecar when the
old name was hashed and `delete_old` is set, and write the new sidecar
(holding the un-hashed original filename) when the new name is hashed. -/
def rename (workingdatapath : String) (fs : List (String × FileData))
    (old_fn_type new_fn_type : String) (old_fn_params new_fn_params : PyDict)
    (fn_ext : Option String) (delete_old : Bool) :
    Except PyErr (List (String × FileData)) :=
  if pyEqDict old_fn_params new_fn_params && old_fn_type = new_fn_type then
    .ok fs
  else do
    let (payload_fn_old, _, is_hashed_old) ←
      get_fn workingdatapath old_fn_type old_fn_params fn_ext
    let (payload_fn_new, original_fn_new, is_hashed_new) ←
      get_fn workingdatapath new_fn_type new_fn_params fn_ext
    if (alookup payload_fn_new fs).isSome then
      .error (.fileExists payload_fn_new)
    else do
      let content ←
        match alookup payload_fn_old fs with
        | some content => pure content
        | none => .error (.fileNotFound payload_fn_old)
      let fs1 :=
        if delete_old then aupsert payload_fn_new content (aremove payload_fn_old fs)
        else aupsert payload_fn_new content fs
      let fs2 ←
        if is_hashed_old && delete_old then
          match alookup (_fn_to_paramsfn payload_fn_old) fs1 with
          | some _ => pure (aremove (_fn_to_paramsfn payload_fn_old) fs1)
          | none => .error (.fileNotFound (_fn_to_paramsfn payload_fn_old))
        else pure fs1
      let fs3 :=
        if is_hashed_new then
          aupsert (_fn_to_paramsfn payload_fn_new) (.text original_fn_new) fs2
        else fs2
      return fs3

/-!  The new-style `Persistable` lifecycle object (base.py, lines 23-190). -/

/-- A lifecycle object: its logical payload name, its own parameters
(`params.to_dict()`), and the tracked dependency objects
(`from_persistble_objs`, spelled as in the source). -/
inductive Persistable where
  | mk (payload_name : String) (params : PyDict) (from_persistble_objs : List Persistable)

def Persistable.payload_name : Persistable → String
  | .mk n _ _ => n

def Persistable.params : Persistable → PyDict
  | .mk _ p _ => p

def Persistable.from_persistble_objs : Persistable → List Persistable
  | .mk _ _ deps => deps

/-- A Python dict display/comprehension from a pair sequence (later
bindings of a repeated key overwrite, keeping the first position). -/
def dictOfPairs (l : List (String × PyVal)) : PyDict :=
  l.foldl (fun acc p => aupsert p.1 p.2 acc) []

/-- Python `a | b` on dicts: a copy of `a` updated with `b`'s bindings. -/
def pyDictUnion (a b : PyDict) : PyDict :=
  b.foldl (fun acc p => aupsert p.1 p.2 acc) (dictOfPairs a)

/-- `Persistable.params_tree` (base.py, lines 69-77):
`self.params.to_dict() | {obj.payload_name: obj.params.to_dict() for obj
in self.from_persistble_objs}` — each tracked dependency contributes its
own `params` dict under its payload name.  (The property caches its result
in `self._params_tree`; the cached value is this one.) -/
def params_tree (p : Persistable) : PyDict :=
  pyDictUnion p.params
    (dictOfPairs (p.from_persistble_objs.map (fun o => (o.payload_name, PyVal.dict o.params))))

/-- `Persistable.persist_filepath` (base.py, lines 187-190): the source
sets `filename = "test"` and returns `self.persistable_datadir / filename`
— the object's name and parameters are not consulted. -/
def persist_filepath (persistable_datadir : String) (_p : Persistable) : String :=
  pathJoin persistable_datadir "test"

/-- The session state of a lifecycle object: the in-memory payload
(`self._payload`), the payload files and params-json files in the data
directory, and a ghost counter of `load_generate` invocations (it tracks
how often the load-or-generate machinery ran; no source variable
corresponds to it). -/
structure LState (α : Type) where
  payload : Option α
  files : List (String × α)
  paramsFiles : List (String × PyDict)
  lgCount : Nat

/-- The constructor-time configuration of a lifecycle object: data
directory, payload file suffix (default `".persistable"`), the object's
identity, and the value its `_generate_payload` hook produces. -/
structure LCfg (α : Type) where
  persistable_datadir : String
  payload_file_suffix : String
  obj : Persistable
  genPayload : α

/-- `self.persist_filepath.with_suffix(self.payload_file_suffix)`
(`"test"` carries no suffix, so `with_suffix` appends). -/
def LCfg.payloadFile {α : Type} (c : LCfg α) : String :=
  persist_filepath c.persistable_datadir c.obj ++ c.payload_file_suffix

/-- `self.persist_filepath.with_suffix(".params.json")`. -/
def LCfg.paramsFile {α : Type} (c : LCfg α) : String :=
  persist_filepath c.persistable_datadir c.obj ++ ".params.json"

/-- `Persistable.load` (base.py, lines 111-129): read the payload file
(`FileNotFoundError` when absent) and store it in `self._payload`;
`_post_load` is a no-op by default. -/
def P_load {α : Type} (c : LCfg α) (s : LState α) : Except PyErr (LState α) :=
  match alookup c.payloadFile s.files with
  | some v => .ok { s with payload := some v }
  | none => .error (.fileNotFound c.payloadFile)

/-- `Persistable.persist` (base.py, lines 100-109): `ValueError` when no
payload is materialized; otherwise write the payload file via
`payload_io.save`, then open the `.params.json` sidecar in binary `"wb"`
mode and `json.dump` the params tree into it.  `json.dump` emits `str`
chunks and a binary-mode handle rejects them, so in Python 3 this last
step always raises `TypeError` ("a bytes-like object is required") before
any chunk lands: the sidecar is created empty and never receives
decodable content (the params-content map is unchanged), the payload file
was already written, and the exception propagates.  The `Except` model
carries no post-exception state, so the error return stands for the
raised `TypeError`; the payload-file write it discards is documented
here. -/
def P_persist {α : Type} (_c : LCfg α) (s : LState α) : Except PyErr (LState α) :=
  match s.payload with
  | none => .error (.valueError "Payload has not been generated.")
  | some _ => .error (.typeError "a bytes-like object is required, not str")

/-- `Persistable.generate` (base.py, lines 79-98): run the user hook,
store the result in `self._payload`, and persist unless told otherwise. -/
def P_generate {α : Type} (c : LCfg α) (persist : Bool) (s : LState α) :
    Except PyErr (LState α) :=
  let s1 := { s with payload := some c.genPayload }
  if persist then P_persist c s1 else .ok s1

/-- `Persistable.load_generate` (base.py, lines 131-143): try `load`; on
`FileNotFoundError` fall back to `generate()` (with its default
`persist=True`); any other exception propagates.  The ghost counter is
incremented on entry. -/
def P_load_generate {α : Type} (c : LCfg α) (s : LState α) : Except PyErr (LState α) :=
  let s0 := { s with lgCount := s.lgCount + 1 }
  match P_load c s0 with
  | .ok s1 => .ok s1
  | .error e => if e.isFileNotFound then P_generate c true s0 else .error e

/-- The `Persistable.payload` accessor (base.py, lines 145-149): when
`self._payload is None` run `load_generate()` first, then return
`self._payload`. -/
def P_payload {α : Type} (c : LCfg α) (s : LState α) : Except PyErr (α × LState α) :=
  match s.payload with
  | some v => .ok (v, s)
  | none =>
    match P_load_generate c s with
    | .ok s1 =>
      match s1.payload with
      | some v => .ok (v, s1)
      | none => .error (.valueError "payload is None")
    | .error e => .error e

/-- `Persistable.reset_payload` (base.py, lines 151-152). -/
def P_reset_payload {α : Type} (s : LState α) : LState α :=
  { s with payload := none }

/-!  Association-list lemmas used by the claims about `params_tree`. -/

theorem alookup_aupsert {α : Type} (k k' : String) (v : α) (l : List (String × α)) :
    alookup k (aupsert k' v l) = if k' = k then some v else alookup k l := by
  induction l with
  | nil => simp [aupsert, alookup]
  | cons p l ih =>
    obtain ⟨k₀, v₀⟩ := p
    by_cases h : k₀ = k'
    · subst h
      by_cases hk : k₀ = k <;> simp [aupsert, alookup, hk]
    · by_cases hk : k₀ = k
      · subst hk
        have h' : k' ≠ k₀ := fun hh => h hh.symm
        simp [aupsert, alookup, h, h']
      · simp [aupsert, alookup, h, hk, ih]

theorem alookup_append {α : Type} (k : String) (a b : List (String × α)) :
    alookup k (a ++ b) =
      match alookup k a with
      | some v => some v
      | none => alookup k b := by
  induction a with
  | nil => simp [alookup]
  | cons p a ih =>
    by_cases h : p.1 = k
    · simp [alookup, h]
    · simp [alookup, h, ih]

theorem alookup_foldl_aupsert {α : Type} (l : List (String × α))
    (acc : List (String × α)) (k : String) :
    alookup k (l.foldl (fun acc p => aupsert p.1 p.2 acc) acc) =
      match alookup k l.reverse with
      | some v => some v
      | none => alookup k acc := by
  induction l generalizing acc with
  | nil => simp [alookup]
  | cons p l ih =>
    rw [List.foldl_cons, ih]
    have hrev : (p :: l).reverse = l.reverse ++ [p] := by simp
    rw [hrev, alookup_append]
    cases h : alookup k l.reverse with
    | some v => rfl
    | none =>
      by_cases hk : p.1 = k <;> simp [alookup, hk, alookup_aupsert]

theorem alookup_eq_none_iff {α : Type} (k : String) (l : List (String × α)) :
    alookup k l = none ↔ k ∉ l.map Prod.fst := by
  induction l with
  | nil => simp [alookup]
  | cons p l ih =>
    by_cases h : p.1 = k
    · simp [alookup, h]
    · simp only [alookup, if_neg h, List.map_cons, List.mem_cons, ih, not_or]
      exact ⟨fun hk => ⟨fun e => h e.symm, hk⟩, fun hk => hk.2⟩

theorem alookup_dictOfPairs (l : List (String × PyVal)) (k : String) :
    alookup k (dictOfPairs l) = alookup k l.reverse := by
  unfold dictOfPairs
  rw [alookup_foldl_aupsert]
  cases h : alookup k l.reverse <;> simp [alookup]

theorem alookup_pyDictUnion (a b : PyDict) (k : String) :
    alookup k (pyDictUnion a b) =
      match alookup k b.reverse with
      | some v => some v
      | none => alookup k a.reverse := by
  unfold pyDictUnion
  rw [alookup_foldl_aupsert]
  cases h : alookup k b.reverse <;> simp [alookup_dictOfPairs]

theorem alookup_reverse_of_nodup {α : Type} (k : String) (l : List (String × α))
    (h : (l.map Prod.fst).Nodup) : alookup k l.reverse = alookup k l := by
  induction l with
  | nil => simp
  | cons p l ih =>
    simp only [List.map_cons, List.nodup_cons] at h
    rw [List.reverse_cons, alookup_append]
    by_cases hk : p.1 = k
    · subst hk
      have : alookup p.1 l.reverse = none := by
        rw [alookup_eq_none_iff]
        simpa using h.1
      simp [this, alookup]
    · cases hrec : alookup k l.reverse with
      | some v => rw [ih h.2] at hrec; simp [alookup, hk, hrec]
      | none => rw [ih h.2] at hrec; simp [alookup, hk, hrec]

theorem aupsert_keys {α : Type} (k : String) (v : α) (l : List (String × α)) :
    (aupsert k v l).map Prod.fst =
      if k ∈ l.map Prod.fst then l.map Prod.fst else l.map Prod.fst ++ [k] := by
  induction l with
  | nil => simp [aupsert]
  | cons p l ih =>
    by_cases h : p.1 = k
    · simp [aupsert, h]
    · have : ¬ k = p.1 := fun e => h e.symm
      by_cases hm : k ∈ l.map Prod.fst <;>
        simp [aupsert, h, ih, hm, this]

theorem aupsert_keys_nodup {α : Type} (k : String) (v : α) (l : List (String × α))
    (h : (l.map Prod.fst).Nodup) : ((aupsert k v l).map Prod.fst).Nodup := by
  rw [aupsert_keys]
  by_cases hm : k ∈ l.map Prod.fst
  · simpa [hm] using h
  · simp only [hm, if_false]
    exact List.Nodup.append h (List.nodup_singleton k) (by simpa using hm)

theorem dictOfPairs_keys_nodup (l : List (String × PyVal)) :
    ((dictOfPairs l).map Prod.fst).Nodup := by
  unfold dictOfPairs
  suffices h : ∀ acc : PyDict, (acc.map Prod.fst).Nodup →
      ((l.foldl (fun acc p => aupsert p.1 p.2 acc) acc).map Prod.fst).Nodup by
    exact h [] (by simp)
  induction l with
  | nil => intro acc hacc; simpa using hacc
  | cons p l ih =>
    intro acc hacc
    exact ih _ (aupsert_keys_nodup p.1 p.2 acc hacc)

theorem alookup_dictOfPairs_reverse (l : List (String × PyVal)) (k : String) :
    alookup k (dictOfPairs l).reverse = alookup k l.reverse := by
  rw [alookup_reverse_of_nodup _ _ (dictOfPairs_keys_nodup l), alookup_dictOfPairs]

theorem alookup_map_name_of_unique (dep : Persistable) (l : List Persistable)
    (hmem : dep ∈ l)
    (huniq : ∀ o ∈ l, o.payload_name = dep.payload_name → o = dep) :
    alookup dep.payload_name
      (l.map (fun o => (o.payload_name, PyVal.dict o.params))) =
      some (.dict dep.params) := by
  induction l with
  | nil => cases hmem
  | cons o l ih =>
    by_cases h : o.payload_name = dep.payload_name
    · have : o = dep := huniq o (List.mem_cons_self o l) h
      subst this
      simp [alookup, h]
    · have hmem' : dep ∈ l := by
        rcases List.mem_cons.mp hmem with h1 | h1
        · exact absurd (congrArg Persistable.payload_name h1.symm) h
        · exact h1
      simp only [List.map_cons, alookup, if_neg h]
      exact ih hmem' (fun o' ho' he => huniq o' (List.mem_cons_of_mem _ ho') he)

/-!  Claim theorems. -/

/-- C1.  The claim states that `persist_filepath` equals
`data_dir / "{name}({md5(str({name: params_tree}))})"`, so that objects
with different names or parameter trees get different paths.  The code
instead hardcodes `filename = "test"`: the path is constant in the
object's name and parameters, and the two concretely distinct objects
below collide on `data/test`. -/
theorem C1_persist_filepath_is_constant_stub :
    (∀ (datadir : String) (p q : Persistable),
       persist_filepath datadir p = persist_filepath datadir q) ∧
    persist_filepath "data" (.mk "a" [("x", .int 1)] []) = "data/test" ∧
    persist_filepath "data" (.mk "b" [("x", .int 2)] []) = "data/test" :=
  ⟨fun _ _ _ => rfl, rfl, rfl⟩

/-- C2, counterexample.  With two on-disk files both matching the partial
query `{a: 1}`, the similarity resolver's ambiguous-match failure is
raised as a `FileNotFoundError` — the very kind the claim says it must be
distinct from — and `load_generate` therefore catches it and falls back to
generation (`(99, true)`) instead of surfacing it to the caller. -/
theorem C2_counterexample_ambiguous_is_fnf :
    PL_load [("t\x7ba=1,b=2\x7d.pkl", (10 : Nat)), ("t\x7ba=1,b=3,c=4\x7d.pkl", 20)]
        "wd" "t" [("a", .int 1)] none
      = .error (.fileNotFound
          "Not enough parameters specified, found more than one related model") ∧
    (PyErr.fileNotFound
        "Not enough parameters specified, found more than one related model").isFileNotFound
      = true ∧
    load_generate
        (PL_load [("t\x7ba=1,b=2\x7d.pkl", (10 : Nat)), ("t\x7ba=1,b=3,c=4\x7d.pkl", 20)]
          "wd" "t" [("a", .int 1)] none) (99 : Nat)
      = .ok (99, true) :=
  ⟨rfl, rfl, rfl⟩

/-- C2, amended.  `load_generate` returns the loaded value when `load`
succeeds, falls back to `generate` exactly when `load` raises a
`FileNotFoundError`, and propagates every other exception unchanged; but
the ambiguous-match failure of the similarity resolver is itself raised
as a `FileNotFoundError` (not a distinct kind), so an ambiguous match
triggers generation instead of surfacing. -/
theorem C2_load_generate_fallback {α : Type} :
    (∀ (v g : α), load_generate (.ok v) g = .ok (v, false)) ∧
    (∀ (e : PyErr) (g : α), e.isFileNotFound = true →
       load_generate (.error e) g = .ok (g, true)) ∧
    (∀ (e : PyErr) (g : α), e.isFileNotFound = false →
       load_generate (.error e) g = .error e) ∧
    (∀ (fs : List (String × α)) (fn_type : String) (fn_params : PyDict),
       2 ≤ (_find_similar_files fn_type fn_params (fs.map Prod.fst)).length →
       _load_similar_file fs fn_type fn_params
         = .error (.fileNotFound
             "Not enough parameters specified, found more than one related model")) := by
  refine ⟨fun v g => rfl, fun e g he => ?_, fun e g he => ?_, ?_⟩
  · simp [load_generate, he]
  · simp [load_generate, he]
  · intro fs fn_type fn_params hlen
    unfold _load_similar_file
    cases h : _find_similar_files fn_type fn_params (fs.map Prod.fst) with
    | nil => rw [h] at hlen; simp at hlen
    | cons a t =>
      cases t with
      | nil => rw [h] at hlen; simp at hlen
      | cons b t' => simp

/-- C2, amended, witness: a deserialization failure is not caught (it
propagates), while a not-found failure triggers the generate fallback. -/
theorem C2_load_generate_fallback_witness :
    load_generate (.error (.deserializationError "bad pickle")) (7 : Nat)
      = .error (.deserializationError "bad pickle") ∧
    load_generate (.error (.fileNotFound "missing")) (7 : Nat) = .ok (7, true) :=
  ⟨(C2_load_generate_fallback (α := Nat)).2.2.1 _ 7 rfl,
   (C2_load_generate_fallback (α := Nat)).2.1 _ 7 rfl⟩

/-- C3, counterexample.  `B` tracks `A`, and `A` tracks `Z` with
`Z.params = {z1: 1}`.  `A.params_tree` contains `Z`'s parameters, but
`B.params_tree` binds `"a"` to `A`'s own `params` only — the key `"z"` is
absent below `B`, so the parameters of the transitive dependency `Z` are
not included (the code merges `obj.params.to_dict()`, not the
dependency's `params_tree`). -/
theorem C3_counterexample_transitive_missing :
    params_tree (.mk "b" [] [.mk "a" [("a1", .int 1)] [.mk "z" [("z1", .int 1)] []]])
      = [("a", .dict [("a1", .int 1)])] ∧
    params_tree (.mk "a" [("a1", .int 1)] [.mk "z" [("z1", .int 1)] []])
      = [("a1", .int 1), ("z", .dict [("z1", .int 1)])] ∧
    (match alookup "a"
        (params_tree (.mk "b" [] [.mk "a" [("a1", .int 1)] [.mk "z" [("z1", .int 1)] []]])) with
     | some (.dict d) => alookup "z" d
     | _ => none) = none :=
  ⟨rfl, rfl, rfl⟩

/-- C3, amended.  `params_tree` is the object's own parameters merged with
one entry per direct tracked dependency, keyed by the dependency's
logical name and holding that dependency's own `params` dict (not its
recursive `params_tree`): a tracked dependency with a unique name maps to
exactly its `params`; a key bound by no dependency resolves in the
object's own parameters; and every key of `params_tree` is an own
parameter key or a direct dependency's name. -/
theorem C3_params_tree_one_level (p : Persistable) :
    (∀ dep ∈ p.from_persistble_objs,
       (∀ o ∈ p.from_persistble_objs, o.payload_name = dep.payload_name → o = dep) →
       alookup dep.payload_name (params_tree p) = some (.dict dep.params)) ∧
    (∀ k : String, (p.params.map Prod.fst).Nodup →
       (∀ o ∈ p.from_persistble_objs, o.payload_name ≠ k) →
       alookup k (params_tree p) = alookup k p.params) ∧
    (∀ (k : String) (v : PyVal), alookup k (params_tree p) = some v →
       k ∈ p.params.map Prod.fst ∨
         k ∈ p.from_persistble_objs.map Persistable.payload_name) := by
  refine ⟨?_, ?_, ?_⟩
  · intro dep hmem huniq
    unfold params_tree
    unfold pyDictUnion
    rw [alookup_foldl_aupsert, alookup_dictOfPairs_reverse]
    have hdep : alookup dep.payload_name
        ((p.from_persistble_objs.map (fun o => (o.payload_name, PyVal.dict o.params))).reverse)
        = some (.dict dep.params) := by
      rw [← List.map_reverse]
      exact alookup_map_name_of_unique dep p.from_persistble_objs.reverse
        (List.mem_reverse.mpr hmem)
        (fun o ho he => huniq o (List.mem_reverse.mp ho) he)
    rw [hdep]
  · intro k hnodup hk
    unfold params_tree
    unfold pyDictUnion
    rw [alookup_foldl_aupsert, alookup_dictOfPairs_reverse]
    have hnone : alookup k
        ((p.from_persistble_objs.map (fun o => (o.payload_name, PyVal.dict o.params))).reverse)
        = none := by
      rw [alookup_eq_none_iff, ← List.map_reverse, List.map_map]
      intro hmem
      obtain ⟨o, ho, he⟩ := List.mem_map.mp hmem
      exact hk o (List.mem_reverse.mp ho) he
    rw [hnone]
    show alookup k (dictOfPairs p.params) = alookup k p.params
    rw [alookup_dictOfPairs, alookup_reverse_of_nodup _ _ hnodup]
  · intro k v hsome
    unfold params_tree at hsome
    unfold pyDictUnion at hsome
    rw [alookup_foldl_aupsert, alookup_dictOfPairs_reverse] at hsome
    cases hdep : alookup k
        ((p.from_persistble_objs.map (fun o => (o.payload_name, PyVal.dict o.params))).reverse) with
    | some w =>
      right
      have hmem : k ∈ ((p.from_persistble_objs.map
          (fun o => (o.payload_name, PyVal.dict o.params))).reverse).map Prod.fst := by
        by_contra hnot
        rw [← alookup_eq_none_iff] at hnot
        rw [hnot] at hdep
        cases hdep
      rw [← List.map_reverse, List.map_map] at hmem
      obtain ⟨o, ho, he⟩ := List.mem_map.mp hmem
      exact he ▸ List.mem_map_of_mem Persistable.payload_name (List.mem_reverse.mp ho)
    | none =>
      left
      rw [hdep] at hsome
      have hsome' : alookup k (dictOfPairs p.params) = some v := hsome
      rw [alookup_dictOfPairs] at hsome'
      have hmem : k ∈ (p.params.reverse.map Prod.fst) := by
        by_contra hnot
        rw [← alookup_eq_none_iff] at hnot
        rw [hnot] at hsome'
        cases hsome'
      simpa using hmem

/-- C3, amended, witness: `B` tracking `A` with `A.params = {a1: 1}` has
the entry `"a" ↦ {a1: 1}` in its `params_tree`, its own key `"b1"` is
kept, and every `params_tree` key is an own key or a dependency name. -/
theorem C3_params_tree_one_level_witness :
    alookup "a" (params_tree (.mk "b" [("b1", .int 2)] [.mk "a" [("a1", .int 1)] []]))
      = some (.dict [("a1", .int 1)]) ∧
    alookup "b1" (params_tree (.mk "b" [("b1", .int 2)] [.mk "a" [("a1", .int 1)] []]))
      = some (.int 2) := by
  constructor
  · exact (C3_params_tree_one_level _).1 (.mk "a" [("a1", .int 1)] [])
      (by simp [Persistable.from_persistble_objs])
      (by
        intro o ho he
        simp only [Persistable.from_persistble_objs, List.mem_singleton] at ho
        exact ho)
  · have h := (C3_params_tree_one_level
        (.mk "b" [("b1", .int 2)] [.mk "a" [("a1", .int 1)] []])).2.1 "b1"
      (by simp [Persistable.params])
      (by
        intro o ho
        simp only [Persistable.from_persistble_objs, List.mem_singleton] at ho
        subst ho
        simp [Persistable.payload_name])
    rw [h]
    rfl

/-- C9.  The claimed access-once invariant holds only on the paths that
avoid `persist`, and its generate-and-persist path is broken: `persist`
always raises `TypeError` once a payload is materialized (base.py line
108 opens the `.params.json` sidecar in binary `"wb"` mode and
`json.dump` writes `str`), so a first `payload` access with no payload
file on disk — the fall-back-to-generate case the claim describes —
raises instead of returning the generated payload.  A first access that
finds a payload file loads it exactly once (the ghost counter increases
by one) and materializes; an access in the materialized state returns
the stored payload with the state unchanged; a second access after any
successful access re-triggers nothing; and `reset_payload` returns to
the unmaterialized state. -/
theorem C9_payload_access_once {α : Type} (c : LCfg α) :
    (∀ s : LState α, s.payload ≠ none →
       P_persist c s = .error (.typeError "a bytes-like object is required, not str")) ∧
    (∀ s : LState α, s.payload = none → alookup c.payloadFile s.files = none →
       P_payload c s = .error (.typeError "a bytes-like object is required, not str")) ∧
    (∀ (s : LState α) (v : α), s.payload = none → alookup c.payloadFile s.files = some v →
       ∃ s' : LState α, P_payload c s = .ok (v, s') ∧
         s'.lgCount = s.lgCount + 1 ∧ s'.payload = some v) ∧
    (∀ (s : LState α) (v : α), s.payload = some v → P_payload c s = .ok (v, s)) ∧
    (∀ (s s' : LState α) (v : α), P_payload c s = .ok (v, s') →
       P_payload c s' = .ok (v, s')) ∧
    (∀ s : LState α, (P_reset_payload s).payload = none) := by
  have haccess : ∀ (s : LState α) (v : α), s.payload = some v →
      P_payload c s = .ok (v, s) := by
    intro s v hp
    unfold P_payload
    rw [hp]
  refine ⟨?_, ?_, ?_, haccess, ?_, fun s => rfl⟩
  · intro s hp
    unfold P_persist
    cases hp0 : s.payload with
    | none => exact absurd hp0 hp
    | some v => rfl
  · intro s hp hf
    unfold P_payload
    rw [hp]
    have hlg : P_load_generate c s =
        .error (.typeError "a bytes-like object is required, not str") := by
      simp [P_load_generate, P_load, P_generate, P_persist, hf, PyErr.isFileNotFound]
    rw [hlg]
  · intro s v hp hf
    unfold P_payload
    rw [hp]
    have hlg : P_load_generate c s =
        .ok ⟨some v, s.files, s.paramsFiles, s.lgCount + 1⟩ := by
      simp [P_load_generate, P_load, hf]
    rw [hlg]
    exact ⟨⟨some v, s.files, s.paramsFiles, s.lgCount + 1⟩, rfl, rfl, rfl⟩
  · intro s s' v h
    unfold P_payload at h
    cases hp : s.payload with
    | some w =>
      rw [hp] at h
      simp only [Except.ok.injEq, Prod.mk.injEq] at h
      obtain ⟨rfl, rfl⟩ := h
      exact haccess s w hp
    | none =>
      rw [hp] at h
      cases hlg : P_load_generate c s with
      | error e => rw [hlg] at h; simp at h
      | ok s1 =>
        rw [hlg] at h
        have h' : (match s1.payload with
            | some v => Except.ok (v, s1)
            | none => Except.error (PyErr.valueError "payload is None")) = .ok (v, s') := h
        cases hs1 : s1.payload with
        | none => rw [hs1] at h'; simp at h'
        | some w =>
          rw [hs1] at h'
          simp only [Except.ok.injEq, Prod.mk.injEq] at h'
          obtain ⟨rfl, rfl⟩ := h'
          exact haccess s1 w hs1

/-- C9, witness: a fresh unmaterialized object over an empty data
directory raises the `TypeError` on its first `payload` access (the
generate-and-persist path), instead of materializing. -/
theorem C9_payload_access_once_witness :
    P_payload ⟨"d", ".persistable", .mk "t" [] [], 42⟩ (⟨none, [], [], 0⟩ : LState Nat)
      = .error (.typeError "a bytes-like object is required, not str") :=
  (C9_payload_access_once _).2.1 ⟨none, [], [], 0⟩ rfl rfl

/-- C10.  When the old and new logical types are equal and the old and new
parameter dicts are Python-`==`-equal, `rename` returns immediately with
the working directory unchanged and no error — in particular no
already-exists failure, although the target path (equal to the source
path) may exist. -/
theorem C10_rename_equal_identity_noop (workingdatapath : String)
    (fs : List (String × FileData)) (old_fn_type new_fn_type : String)
    (old_fn_params new_fn_params : PyDict) (fn_ext : Option String)
    (delete_old : Bool)
    (hp : pyEqDict old_fn_params new_fn_params = true)
    (ht : old_fn_type = new_fn_type) :
    rename workingdatapath fs old_fn_type new_fn_type old_fn_params new_fn_params
      fn_ext delete_old = .ok fs := by
  unfold rename
  simp [hp, ht]

/-- C10, witness: renaming `("t", {a: 1})` to itself over a directory
where the (identical) target file exists returns the directory unchanged
instead of an already-exists failure. -/
theorem C10_rename_equal_identity_noop_witness :
    get_fn "wd" "t" [("a", .int 1)] none = .ok ("t\x7ba=1\x7d.pkl", "t\x7ba=1\x7d.pkl", false) ∧
    alookup "t\x7ba=1\x7d.pkl" [("t\x7ba=1\x7d.pkl", FileData.blob 0)] = some (.blob 0) ∧
    rename "wd" [("t\x7ba=1\x7d.pkl", FileData.blob 0)] "t" "t"
        [("a", .int 1)] [("a", .int 1)] none true
      = .ok [("t\x7ba=1\x7d.pkl", FileData.blob 0)] :=
  ⟨rfl, rfl,
    C10_rename_equal_identity_noop "wd" [("t\x7ba=1\x7d.pkl", FileData.blob 0)] "t" "t"
      [("a", .int 1)] [("a", .int 1)] none true (by decide) rfl⟩


/-- A concrete 406-character filename used to exercise the long-name
guard. -/
def longProbeFn : String :=
  "t\x7bp0=0,p1=1,p2=2,p3=3,p4=4,p5=5,p6=6,p7=7,p8=8,p9=9,p10=10,p11=11,p12=12,p13=13,p14=14,p15=15,p16=16,p17=17,p18=18,p19=19,p20=20,p21=21,p22=22,p23=23,p24=24,p25=25,p26=26,p27=27,p28=28,p29=29,p30=30,p31=31,p32=32,p33=33,p34=34,p35=35,p36=36,p37=37,p38=38,p39=39,p40=40,p41=41,p42=42,p43=43,p44=44,p45=45,p46=46,p47=47,p48=48,p49=49,p50=50,p51=51,p52=52,p53=53,p54=54,p55=55,p56=56,p57=57,p58=58,p59=59\x7d.pkl"

/-- C6.  The long-name guard triggers exactly when the filename exceeds
255 characters or the joined path exceeds 259 characters (with
`force_long` off); when triggered it returns the hashed filename
`fn_type + "_truncatedHash(" + md5(fn) + ")"` followed by a dot and the
filename's last dot-component, together with the sidecar name
`<hashed_name>.params`; when not triggered it returns the filename
unchanged and no sidecar; and applying it twice to the same input yields
the same result. -/
theorem C6_handle_long_fn_guard (fn fn_type workingdatapath : String) :
    ((handle_long_fn fn fn_type workingdatapath false).1 = true ↔
       255 < fn.length ∨ 259 < (pathJoin workingdatapath fn).length) ∧
    (255 < fn.length ∨ 259 < (pathJoin workingdatapath fn).length →
       handle_long_fn fn fn_type workingdatapath false =
         (true,
          fn_type ++ "_truncatedHash(" ++ md5hex fn ++ ")" ++ "." ++
            String.mk ((splitOnChar '.' fn.data).getLastD []),
          some (fn_type ++ "_truncatedHash(" ++ md5hex fn ++ ")" ++ ".params"))) ∧
    (¬(255 < fn.length ∨ 259 < (pathJoin workingdatapath fn).length) → handle_long_fn fn fn_type workingdatapath false = (false, fn, none)) ∧
    handle_long_fn fn fn_type workingdatapath false
      = handle_long_fn fn fn_type workingdatapath false := by
  by_cases h : 255 < fn.length ∨ 259 < (pathJoin workingdatapath fn).length
  · refine ⟨by simp [handle_long_fn, h], fun _ => ?_, fun hc => absurd h hc, rfl⟩
    simp [handle_long_fn, h]
  · refine ⟨by simp [handle_long_fn, h], fun hc => absurd hc h, fun _ => ?_, rfl⟩
    simp [handle_long_fn, h]

set_option maxRecDepth 4000 in
/-- C6, witness: the 406-character filename triggers the guard and is
replaced by the hashed name with its `.params` sidecar; a short filename
passes through unchanged with no sidecar. -/
theorem C6_handle_long_fn_guard_witness :
    handle_long_fn longProbeFn "t" "wd" false =
      (true,
       "t" ++ "_truncatedHash(" ++ md5hex longProbeFn ++ ")" ++ "." ++
         String.mk ((splitOnChar '.' longProbeFn.data).getLastD []),
       some ("t" ++ "_truncatedHash(" ++ md5hex longProbeFn ++ ")" ++ ".params")) ∧
    handle_long_fn "short\x7b\x7d.pkl" "short" "wd" false = (false, "short\x7b\x7d.pkl", none) :=
  ⟨(C6_handle_long_fn_guard longProbeFn "t" "wd").2.1 (Or.inl (by decide)),
   (C6_handle_long_fn_guard "short\x7b\x7d.pkl" "short" "wd").2.2.1 (by decide)⟩

/-- C8, counterexample.  A parameter value containing `/` does not raise
any encoding error: `default_standard_filename` checks only `<` and `>`,
so the filename `t{a='x/y'}.pkl` is returned successfully (the `/` check
lives in `PersistableOld._validate_params`, which runs at construction
time, not at encoding time). -/
theorem C8_counterexample_slash_encodes :
    default_standard_filename "t" none [("a", .str "x/y")] = .ok "t\x7ba='x/y'\x7d.pkl" :=
  rfl

/-- C8, amended.  The encoder raises an `OSError` for `<` and `>` only:
whenever it succeeds the returned filename contains neither character, a
`<` (checked first) or `>` in a rendered value raises, and a `/` passes
the encoder untouched; the `/` rejection is performed separately by
`PersistableOld._validate_params`, which succeeds exactly when no
top-level parameter value's `str` contains a `/` (and raises `ValueError`
otherwise, before any file could be produced). -/
theorem C8_forbidden_char_rejection :
    (∀ (fn_type : String) (fn_ext : Option String) (p : PyDict) (fn : String),
       default_standard_filename fn_type fn_ext p = .ok fn →
       hasChar '<' fn = false ∧ hasChar '>' fn = false) ∧
    (∀ p : PyDict, _validate_params p = .ok () ↔
       ∀ pr ∈ p, hasChar '/' (pyStr pr.2) = false) ∧
    default_standard_filename "t" none [("a", .str "x<y")]
      = .error (.osError "forbidden char < in filename") ∧
    default_standard_filename "t" none [("a", .str "x>y")]
      = .error (.osError "forbidden char > in filename") ∧
    default_standard_filename "t" none [("a", .str "x/y")] = .ok "t\x7ba='x/y'\x7d.pkl" ∧
    _validate_params [("a", .str "x/y")]
      = .error (.valueError "Parameter contained at least one slash") := by
  refine ⟨?_, ?_, rfl, rfl, rfl, rfl⟩
  · intro fn_type fn_ext p fn h
    unfold default_standard_filename at h
    by_cases hcol :
        SHORTEN_PARAM_MAP.any (fun q => hasKey q.1 p && hasKey q.2 p) = true
    · rw [if_pos hcol] at h
      cases h
    · rw [if_neg hcol] at h
      by_cases hlt : hasChar '<'
          (fn_type ++ dict_to_fnsuffix (_convert_listlike_fn_params (recKeyMap shortenKey p)) ++
            normExt fn_ext) = true
      · rw [if_pos hlt] at h
        cases h
      · rw [if_neg hlt] at h
        by_cases hgt : hasChar '>'
            (fn_type ++ dict_to_fnsuffix (_convert_listlike_fn_params (recKeyMap shortenKey p)) ++
              normExt fn_ext) = true
        · rw [if_pos hgt] at h
          cases h
        · rw [if_neg hgt] at h
          simp only [Except.ok.injEq] at h
          subst h
          exact ⟨by simpa using hlt, by simpa using hgt⟩
  · intro p
    induction p with
    | nil => simp [_validate_params]
    | cons pr d ih =>
      obtain ⟨k, v⟩ := pr
      by_cases h : hasChar '/' (pyStr v) = true
      · simp [_validate_params, h]
      · have h' : hasChar '/' (pyStr v) = false := by simpa using h
        simp [_validate_params, h', ih]

/-- C8, amended, witness: the filename the encoder returns for the
`/`-bearing parameter set contains neither `<` nor `>`. -/
theorem C8_forbidden_char_rejection_witness :
    hasChar '<' "t\x7ba='x/y'\x7d.pkl" = false ∧ hasChar '>' "t\x7ba='x/y'\x7d.pkl" = false :=
  C8_forbidden_char_rejection.1 "t" none [("a", .str "x/y")] _ rfl

/-- C4.  A directory file is a candidate of the similarity resolver iff
its name decodes successfully, the decoded name equals the requested
logical name, and every requested key is bound in the decoded params to a
value equal to the request's rendered (space-stripped `repr`) form; and
concretely, querying `{a: 1}` against files encoding `{a: 1, b: 2}` and
`{a: 1, b: 3, c: 4}` yields both (so loading fails with the
ambiguous-match error), while querying `{b: 2}` yields exactly the first
(which then loads). -/
theorem C4_find_similar_files_characterization :
    (∀ (fn_type : String) (fn_params : PyDict) (files : List String) (fp : String),
       fp ∈ _find_similar_files fn_type fn_params files ↔
         fp ∈ files ∧
           ∃ (ext : String) (d : List (String × Pval)),
             parse_standard_filename fp = .ok (fn_type, ext, d) ∧
             ∀ pr ∈ compareDict fn_params,
               ∃ w, pvalLookup pr.1 d = some w ∧ pvalEq w pr.2 = true) ∧
    _find_similar_files "t" [("a", .int 1)]
        ["t\x7ba=1,b=2\x7d.pkl", "t\x7ba=1,b=3,c=4\x7d.pkl"]
      = ["t\x7ba=1,b=2\x7d.pkl", "t\x7ba=1,b=3,c=4\x7d.pkl"] ∧
    _load_similar_file [("t\x7ba=1,b=2\x7d.pkl", (10 : Nat)), ("t\x7ba=1,b=3,c=4\x7d.pkl", 20)]
        "t" [("a", .int 1)]
      = .error (.fileNotFound
          "Not enough parameters specified, found more than one related model") ∧
    _find_similar_files "t" [("b", .int 2)]
        ["t\x7ba=1,b=2\x7d.pkl", "t\x7ba=1,b=3,c=4\x7d.pkl"]
      = ["t\x7ba=1,b=2\x7d.pkl"] ∧
    _load_similar_file [("t\x7ba=1,b=2\x7d.pkl", (10 : Nat)), ("t\x7ba=1,b=3,c=4\x7d.pkl", 20)]
        "t" [("b", .int 2)]
      = .ok 10 := by
  refine ⟨?_, rfl, rfl, rfl, rfl⟩
  intro fn_type fn_params files fp
  unfold _find_similar_files
  rw [List.mem_filter]
  constructor
  · rintro ⟨hmem, hpred⟩
    refine ⟨hmem, ?_⟩
    cases hparse : parse_standard_filename fp with
    | error e =>
      rw [hparse] at hpred
      cases hpred
    | ok trip =>
      obtain ⟨t', ext, d⟩ := trip
      rw [hparse] at hpred
      simp only [Bool.and_eq_true, decide_eq_true_eq] at hpred
      obtain ⟨ht, hsub⟩ := hpred
      subst ht
      refine ⟨ext, d, rfl, ?_⟩
      intro pr hpr
      unfold subsetMatch at hsub
      have hone := (List.all_eq_true.mp hsub) pr hpr
      cases hw : pvalLookup pr.1 d with
      | none => rw [hw] at hone; cases hone
      | some w =>
        rw [hw] at hone
        exact ⟨w, rfl, hone⟩
  · rintro ⟨hmem, ext, d, hparse, hall⟩
    refine ⟨hmem, ?_⟩
    rw [hparse]
    simp only [Bool.and_eq_true, decide_eq_true_eq]
    refine ⟨by simp, ?_⟩
    unfold subsetMatch
    rw [List.all_eq_true]
    intro pr hpr
    obtain ⟨w, hw, he⟩ := hall pr hpr
    simp [hw, he]

/-!  Key-permutation equivalence of parameter trees, for the determinism
claim about `dict_to_fnsuffix`. -/

mutual

/-- Two parameter values equal up to reordering the keys of dicts reached
along a chain of dict values: leaves and sequence/set values must be
syntactically equal (a dict nested inside a sequence renders via Python
`repr`, which preserves insertion order, so reordering there is visible),
while dict values may bind the same keys in any order to equivalent
values. -/
def equivVal : PyVal → PyVal → Bool
  | .int a, .int b => a = b
  | .float a, .float b => a = b
  | .str a, .str b => a = b
  | .bool a, .bool b => a = b
  | .list xs, .list ys => pyBeqList xs ys
  | .tuple xs, .tuple ys => pyBeqList xs ys
  | .set xs, .set ys => pyBeqList xs ys
  | .dict d, .dict e => equivDict d e
  | _, _ => false

/-- Two dicts binding the same keys, in any order, to `equivVal`-related
values: each binding of the left side is matched and removed from the
right side, which must end empty. -/
def equivDict : PyDict → PyDict → Bool
  | [], e => e.isEmpty
  | (k, v) :: d, e =>
    match extractPyKey k e with
    | some (w, e') => equivVal v w && equivDict d e'
    | none => false

end

mutual

/-- Every dict inside the value (at any position) binds each key at most
once — true of every value tree that comes from actual Python data, where
dicts cannot bind a key twice. -/
def pyNodupVal : PyVal → Bool
  | .int _ => true
  | .float _ => true
  | .str _ => true
  | .bool _ => true
  | .list xs => pyNodupList xs
  | .tuple xs => pyNodupList xs
  | .set xs => pyNodupList xs
  | .dict d => pyNodupDict d

/-- `pyNodupVal` over the elements of a sequence. -/
def pyNodupList : List PyVal → Bool
  | [] => true
  | x :: xs => pyNodupVal x && pyNodupList xs

/-- `pyNodupVal` over a dict: distinct keys, and nodup values. -/
def pyNodupDict : PyDict → Bool
  | [] => true
  | (k, v) :: d => !(alookup k d).isSome && pyNodupVal v && pyNodupDict d

end

/-- Soundness of syntactic equality: `pyBeq` (and its list and dict
companions) decide plain equality. -/
theorem pyBeq_sound_all (n : Nat) :
    (∀ v w : PyVal, sizeOf v ≤ n → pyBeq v w = true → v = w) ∧
    (∀ xs ys : List PyVal, sizeOf xs ≤ n → pyBeqList xs ys = true → xs = ys) ∧
    (∀ d e : PyDict, sizeOf d ≤ n → pyBeqDict d e = true → d = e) := by
  induction n with
  | zero =>
    refine ⟨fun v w hle => ?_, fun xs ys hle => ?_, fun d e hle => ?_⟩
    · cases v <;> simp at hle
    · cases xs <;> simp at hle
    · cases d <;> simp at hle
  | succ n ih =>
    obtain ⟨ihv, ihl, ihd⟩ := ih
    refine ⟨fun v w hle hb => ?_, fun xs ys hle hb => ?_, fun d e hle hb => ?_⟩
    · cases v <;> cases w <;> simp only [pyBeq] at hb <;> try cases hb
      case int.int a b => simp only [decide_eq_true_eq] at hb; rw [hb]
      case float.float a b => simp only [decide_eq_true_eq] at hb; rw [hb]
      case str.str a b => simp only [decide_eq_true_eq] at hb; rw [hb]
      case bool.bool a b => simp only [decide_eq_true_eq] at hb; rw [hb]
      case list.list xs ys =>
        have : sizeOf xs ≤ n := by simp at hle; omega
        rw [ihl xs ys this hb]
      case tuple.tuple xs ys =>
        have : sizeOf xs ≤ n := by simp at hle; omega
        rw [ihl xs ys this hb]
      case set.set xs ys =>
        have : sizeOf xs ≤ n := by simp at hle; omega
        rw [ihl xs ys this hb]
      case dict.dict d e =>
        have : sizeOf d ≤ n := by simp at hle; omega
        rw [ihd d e this hb]
    · cases xs with
      | nil => cases ys with
        | nil => rfl
        | cons y ys => simp [pyBeqList] at hb
      | cons x xs =>
        cases ys with
        | nil => simp [pyBeqList] at hb
        | cons y ys =>
          simp only [pyBeqList, Bool.and_eq_true] at hb
          have h1 : sizeOf x ≤ n := by simp at hle; omega
          have h2 : sizeOf xs ≤ n := by simp at hle; omega
          rw [ihv x y h1 hb.1, ihl xs ys h2 hb.2]
    · cases d with
      | nil => cases e with
        | nil => rfl
        | cons q e => simp [pyBeqDict] at hb
      | cons p d =>
        obtain ⟨k, v⟩ := p
        cases e with
        | nil => simp [pyBeqDict] at hb
        | cons q e =>
          obtain ⟨k', w⟩ := q
          simp only [pyBeqDict, Bool.and_eq_true, decide_eq_true_eq] at hb
          have h1 : sizeOf v ≤ n := by simp at hle; omega
          have h2 : sizeOf d ≤ n := by simp at hle; omega
          rw [hb.1.1, ihv v w h1 hb.1.2, ihd d e h2 hb.2]

/-- `pyBeqList` decides equality of value lists. -/
theorem pyBeqList_sound {xs ys : List PyVal} (h : pyBeqList xs ys = true) : xs = ys :=
  (pyBeq_sound_all (sizeOf xs)).2.1 xs ys le_rfl h

/-!  `lexLe`/`strLe` is a total preorder with antisymmetry, so sorting
rendered entries by key is deterministic. -/

theorem charToNat_inj {a b : Char} (h : a.toNat = b.toNat) : a = b :=
  Char.ext (UInt32.toNat.inj h)

theorem lexLe_total : ∀ a b : List Char, lexLe a b = true ∨ lexLe b a = true
  | [], _ => Or.inl rfl
  | _ :: _, [] => Or.inr rfl
  | a :: as, b :: bs => by
    by_cases h1 : a.toNat < b.toNat
    · left; simp [lexLe, h1]
    · by_cases h2 : b.toNat < a.toNat
      · right; simp [lexLe, h2]
      · rcases lexLe_total as bs with h | h
        · left; simp [lexLe, h1, h2, h]
        · right; simp [lexLe, h1, h2, h]

theorem lexLe_trans : ∀ a b c : List Char,
    lexLe a b = true → lexLe b c = true → lexLe a c = true
  | [], _, _, _, _ => rfl
  | _ :: _, [], _, h1, _ => by simp [lexLe] at h1
  | _ :: _, _ :: _, [], _, h2 => by simp [lexLe] at h2
  | a :: as, b :: bs, c :: cs, h1, h2 => by
    simp only [lexLe] at h1 h2 ⊢
    by_cases hab : a.toNat < b.toNat
    · by_cases hbc : b.toNat < c.toNat
      · simp [show a.toNat < c.toNat by omega]
      · rw [if_neg hbc] at h2
        by_cases hcb : c.toNat < b.toNat
        · rw [if_pos hcb] at h2; cases h2
        · have : b.toNat = c.toNat := by omega
          simp [show a.toNat < c.toNat by omega]
    · rw [if_neg hab] at h1
      by_cases hba : b.toNat < a.toNat
      · rw [if_pos hba] at h1; cases h1
      · have heq : a.toNat = b.toNat := by omega
        rw [if_neg (by omega)] at h1
        by_cases hbc : b.toNat < c.toNat
        · simp [show a.toNat < c.toNat by omega]
        · rw [if_neg hbc] at h2
          by_cases hcb : c.toNat < b.toNat
          · rw [if_pos hcb] at h2; cases h2
          · rw [if_neg (by omega)] at h2
            rw [if_neg (by omega), if_neg (by omega)]
            exact lexLe_trans as bs cs h1 h2

theorem lexLe_antisymm : ∀ a b : List Char,
    lexLe a b = true → lexLe b a = true → a = b
  | [], [], _, _ => rfl
  | [], _ :: _, _, h2 => by simp [lexLe] at h2
  | _ :: _, [], h1, _ => by simp [lexLe] at h1
  | a :: as, b :: bs, h1, h2 => by
    simp only [lexLe] at h1 h2
    by_cases hab : a.toNat < b.toNat
    · rw [if_neg (by omega), if_pos (by omega)] at h2; cases h2
    · by_cases hba : b.toNat < a.toNat
      · rw [if_neg (by omega), if_pos (by omega)] at h1; cases h1
      · rw [if_neg hab, if_neg (by omega)] at h1
        rw [if_neg hba, if_neg (by omega)] at h2
        rw [charToNat_inj (show a.toNat = b.toNat by omega),
          lexLe_antisymm as bs h1 h2]

theorem strLe_antisymm {a b : String} (h1 : strLe a b = true) (h2 : strLe b a = true) :
    a = b := by
  cases a with
  | mk da =>
    cases b with
    | mk db =>
      have : da = db := lexLe_antisymm da db h1 h2
      rw [this]

instance : IsTotal (String × String) entryLeR :=
  ⟨fun p q => by
    unfold entryLeR strLe
    exact lexLe_total p.1.data q.1.data⟩

instance : IsTrans (String × String) entryLeR :=
  ⟨fun p q r h1 h2 => by
    unfold entryLeR strLe at h1 h2 ⊢
    exact lexLe_trans _ _ _ h1 h2⟩

theorem fnItems_eq_map (d : PyDict) :
    fnItems d = d.map (fun p => (p.1, fnValue p.2)) := by
  induction d with
  | nil => rfl
  | cons p d ih =>
    obtain ⟨k, v⟩ := p
    simp only [fnItems, List.map_cons, ih]

theorem extractPyKey_perm {k : String} : ∀ {e : PyDict} {w : PyVal} {e' : PyDict},
    extractPyKey k e = some (w, e') → e.Perm ((k, w) :: e')
  | [], _, _, h => by simp [extractPyKey] at h
  | (k', v) :: l, w, e', h => by
    by_cases hk : k' = k
    · subst hk
      simp only [extractPyKey, if_pos rfl, Option.some.injEq, Prod.mk.injEq] at h
      obtain ⟨rfl, rfl⟩ := h
      exact List.Perm.refl _
    · simp only [extractPyKey, if_neg hk] at h
      cases hrec : extractPyKey k l with
      | none => rw [hrec] at h; cases h
      | some p =>
        obtain ⟨w0, l'⟩ := p
        rw [hrec] at h
        simp only [Option.map_some', Option.some.injEq, Prod.mk.injEq] at h
        obtain ⟨rfl, rfl⟩ := h
        exact ((extractPyKey_perm hrec).cons (k', v)).trans (List.Perm.swap _ _ _)

theorem pyNodupDict_keys_nodup : ∀ {d : PyDict},
    pyNodupDict d = true → (d.map Prod.fst).Nodup
  | [], _ => List.nodup_nil
  | (k, v) :: d, h => by
    simp only [pyNodupDict, Bool.and_eq_true, Bool.not_eq_true'] at h
    obtain ⟨⟨hk, _⟩, hd⟩ := h
    refine List.Nodup.cons ?_ (pyNodupDict_keys_nodup hd)
    have : alookup k d = none := by
      cases ha : alookup k d with
      | none => rfl
      | some w => rw [ha] at hk; cases hk
    exact fun hmem => ((alookup_eq_none_iff k d).mp this) hmem

theorem sorted_perm_nodupkeys_eq : ∀ (l1 l2 : List (String × String)),
    l1.Perm l2 → l1.Sorted entryLeR → l2.Sorted entryLeR →
    (l1.map Prod.fst).Nodup → l1 = l2
  | [], l2, hperm, _, _, _ => hperm.nil_eq
  | p :: t1, [], hperm, _, _, _ => by
    have := hperm.length_eq
    simp at this
  | p :: t1, q :: t2, hperm, h1, h2, hnodup => by
    have hq_mem : q ∈ p :: t1 := hperm.symm.subset (List.mem_cons_self q t2)
    have hp_mem : p ∈ q :: t2 := hperm.subset (List.mem_cons_self p t1)
    have hqp : q = p := by
      rcases List.mem_cons.mp hq_mem with h | hq_t1
      · exact h
      · rcases List.mem_cons.mp hp_mem with h | hp_t2
        · exact h.symm
        · have hle1 : entryLeR p q := List.rel_of_sorted_cons h1 q hq_t1
          have hle2 : entryLeR q p := List.rel_of_sorted_cons h2 p hp_t2
          have hkeys : p.1 = q.1 := strLe_antisymm hle1 hle2
          exfalso
          simp only [List.map_cons, List.nodup_cons] at hnodup
          exact hnodup.1 (hkeys ▸ List.mem_map_of_mem Prod.fst hq_t1)
    subst hqp
    have htail : t1.Perm t2 := hperm.cons_inv
    simp only [List.map_cons, List.nodup_cons] at hnodup
    rw [sorted_perm_nodupkeys_eq t1 t2 htail h1.of_cons h2.of_cons hnodup.2]

/-- Rendering respects key-permutation equivalence: equivalent values
render identically through `fnValue`, and equivalent dicts have
permutation-related rendered entry lists. -/
theorem equiv_render_all (n : Nat) :
    (∀ v w : PyVal, sizeOf v ≤ n → pyNodupVal v = true → equivVal v w = true →
       fnValue v = fnValue w) ∧
    (∀ d e : PyDict, sizeOf d ≤ n → pyNodupDict d = true → equivDict d e = true →
       (fnItems d).Perm (fnItems e)) := by
  induction n with
  | zero =>
    refine ⟨fun v w hle => by cases v <;> simp at hle,
            fun d e hle => by cases d <;> simp at hle⟩
  | succ n ih =>
    obtain ⟨ihv, ihd⟩ := ih
    constructor
    · intro v w hle hnod heq
      cases v <;> cases w <;> simp only [equivVal] at heq <;> try cases heq
      case int.int a b => simp only [decide_eq_true_eq] at heq; rw [heq]
      case float.float a b => simp only [decide_eq_true_eq] at heq; rw [heq]
      case str.str a b => simp only [decide_eq_true_eq] at heq; rw [heq]
      case bool.bool a b => simp only [decide_eq_true_eq] at heq; rw [heq]
      case list.list xs ys => rw [pyBeqList_sound heq]
      case tuple.tuple xs ys => rw [pyBeqList_sound heq]
      case set.set xs ys => rw [pyBeqList_sound heq]
      case dict.dict d e =>
        have hsz : sizeOf d ≤ n := by simp at hle; omega
        have hnd : pyNodupDict d = true := by simpa [pyNodupVal] using hnod
        have hperm : (fnItems d).Perm (fnItems e) := ihd d e hsz hnd heq
        have hkeys : ((fnItems d).map Prod.fst).Nodup := by
          rw [fnItems_eq_map, List.map_map]
          exact pyNodupDict_keys_nodup hnd
        have hsort : (fnItems d).insertionSort entryLeR
            = (fnItems e).insertionSort entryLeR := by
          refine sorted_perm_nodupkeys_eq _ _
            ((List.perm_insertionSort _ _).trans
              (hperm.trans (List.perm_insertionSort _ _).symm))
            (List.sorted_insertionSort _ _) (List.sorted_insertionSort _ _) ?_
          exact ((List.perm_insertionSort entryLeR (fnItems d)).map Prod.fst).nodup_iff.mpr
            hkeys
        simp only [fnValue]
        rw [hsort]
    · intro d e hle hnod heq
      cases d with
      | nil =>
        cases e with
        | nil => exact List.Perm.refl _
        | cons q e' => simp [equivDict] at heq
      | cons p d' =>
        obtain ⟨k, v⟩ := p
        simp only [equivDict] at heq
        cases hex : extractPyKey k e with
        | none => rw [hex] at heq; cases heq
        | some pr =>
          obtain ⟨w, e'⟩ := pr
          rw [hex] at heq
          simp only [Bool.and_eq_true] at heq
          obtain ⟨hvw, hde⟩ := heq
          simp only [pyNodupDict, Bool.and_eq_true, Bool.not_eq_true'] at hnod
          obtain ⟨⟨_, hnv⟩, hnd'⟩ := hnod
          have hsz1 : sizeOf v ≤ n := by simp at hle; omega
          have hsz2 : sizeOf d' ≤ n := by simp at hle; omega
          have hrv : fnValue v = fnValue w := ihv v w hsz1 hnv hvw
          have hrd : (fnItems d').Perm (fnItems e') := ihd d' e' hsz2 hnd' hde
          have he : e.Perm ((k, w) :: e') := extractPyKey_perm hex
          have hmap : (fnItems e).Perm ((k, fnValue w) :: fnItems e') := by
            rw [fnItems_eq_map, fnItems_eq_map]
            simpa using he.map (fun p => (p.1, fnValue p.2))
          have step1 : fnItems ((k, v) :: d') = (k, fnValue w) :: fnItems d' := by
            show (k, fnValue v) :: fnItems d' = _
            rw [hrv]
          rw [step1]
          exact (hrd.cons (k, fnValue w)).trans hmap.symm

/-!  Fuel bounds, goodness predicates and span lemmas for the round-trip
claim: the suffix grammar parses every rendered suffix of a
well-behaved parameter tree. -/

mutual

/-- An upper bound on the parser fuel needed for the rendering of a
value. -/
def pvFuel : PyVal → Nat
  | .int _ => 1
  | .float _ => 1
  | .str _ => 1
  | .bool _ => 1
  | .list xs => 2 + pvFuelList xs
  | .tuple xs => 2 + pvFuelList xs
  | .set xs => 2 + pvFuelList xs
  | .dict d => 2 + pvFuelDict d

/-- Fuel bound for a rendered element list. -/
def pvFuelList : List PyVal → Nat
  | [] => 0
  | x :: xs => 1 + pvFuel x + pvFuelList xs

/-- Fuel bound for rendered dict items. -/
def pvFuelDict : PyDict → Nat
  | [] => 0
  | (_, v) :: d => 2 + pvFuel v + pvFuelDict d

end

/-- An atom-safe character: in the atom class, not whitespace, not a
quote, and not one of the encoder-forbidden `<`/`>`. -/
def isAtomCharOK (c : Char) : Bool :=
  isAtomChar c && !isSpaceChar c && c ≠ '\'' && c ≠ '"' && c ≠ '<' && c ≠ '>'

/-- A key made of `\w` word characters. -/
def goodKey (k : String) : Bool := k.data.all isWordChar

/-- A string-value character that renders verbatim inside quotes: no
quote, no backslash, no control character (Python's `repr` would escape
those), and not `<`/`>`. -/
def goodStrChar (c : Char) : Bool :=
  c ≠ '\'' && c ≠ '\\' && c ≠ '<' && c ≠ '>' && decide (32 ≤ c.toNat)

/-- Homogeneous set elements: all strings.  The source's set rendering is
`repr(sorted(set))`, and Python's `sorted` raises `TypeError` on sets
mixing strings with numbers (while `pyLe` totalizes that comparison as
`false`); on all-string sets Python's `<` is the code-point order that
`pyLe`/`strLe` implement, so only those sets are admitted as
well-behaved. -/
def allStrElems : List PyVal → Bool
  | [] => true
  | .str _ :: xs => allStrElems xs
  | _ :: _ => false

mutual

/-- A value whose rendering at dict-value position parses back and whose
rendering the source computes without raising: a nonempty dict of good
entries, a nonempty all-string set of good elements (Python's `sorted`
raises on mixed element types), or a good repr-position value. -/
def goodVal : PyVal → Bool
  | .dict d => !d.isEmpty && goodDict d
  | .set xs => !xs.isEmpty && allStrElems xs && goodRVList xs
  | .int n => goodRV (.int n)
  | .float r => goodRV (.float r)
  | .str s => goodRV (.str s)
  | .bool b => goodRV (.bool b)
  | .list xs => goodRV (.list xs)
  | .tuple xs => goodRV (.tuple xs)

/-- A value whose Python `repr` parses back as one grammar value: leaves
with safe characters, nonempty lists, tuples of at least two elements
(`repr` of a one-tuple carries a trailing comma the grammar rejects), and
no dicts or sets below a sequence. -/
def goodRV : PyVal → Bool
  | .int _ => true
  | .float r => !r.data.isEmpty && r.data.all isAtomCharOK
  | .str s => s.data.all goodStrChar
  | .bool _ => true
  | .list xs => !xs.isEmpty && goodRVList xs
  | .tuple xs => decide (2 ≤ xs.length) && goodRVList xs
  | .set _ => false
  | .dict _ => false

/-- `goodRV` over the elements of a sequence. -/
def goodRVList : List PyVal → Bool
  | [] => true
  | x :: xs => goodRV x && goodRVList xs

/-- Good dict entries: word keys and good values. -/
def goodDict : PyDict → Bool
  | [] => true
  | (k, v) :: d => goodKey k && goodVal v && goodDict d

end

/-- Key-ordering of unrendered dict entries. -/
def pairLeR (p q : String × PyVal) : Prop := strLe p.1 q.1 = true

instance : DecidableRel pairLeR := fun p q => by unfold pairLeR; infer_instance

/-- The sorted entries of a dict, before rendering. -/
def sortPairsPV (d : PyDict) : PyDict := d.insertionSort pairLeR

/-- `rest` is empty or starts with a delimiter that can follow a value. -/
def delimAfter : List Char → Prop
  | [] => True
  | c :: _ => c = ',' ∨ c = '\x7d' ∨ c = ']' ∨ c = ')'

/-- `l` is empty or does not start with a `p`-character. -/
def headNot (p : Char → Bool) : List Char → Prop
  | [] => True
  | c :: _ => p c = false

theorem takeWhile_append_exact {p : Char → Bool} :
    ∀ (t rest : List Char), (∀ c ∈ t, p c = true) → headNot p rest →
      (t ++ rest).takeWhile p = t ∧ (t ++ rest).dropWhile p = rest
  | [], [], _, _ => ⟨rfl, rfl⟩
  | [], c :: cs, _, hr => by
    simp only [headNot] at hr
    simp [List.takeWhile, List.dropWhile, hr]
  | a :: t, rest, ht, hr => by
    have ha : p a = true := ht a (List.mem_cons_self a t)
    have ih := takeWhile_append_exact t rest (fun c hc => ht c (List.mem_cons_of_mem a hc)) hr
    simp [List.takeWhile, List.dropWhile, ha, ih.1, ih.2]

theorem skipSpaces_eq_self {l : List Char} (h : headNot isSpaceChar l) :
    skipSpaces l = l := by
  cases l with
  | nil => rfl
  | cons c cs =>
    simp only [headNot] at h
    simp [skipSpaces, List.dropWhile, h]

theorem parseQuoted_none {l : List Char}
    (h : ∀ c, l.head? = some c → c ≠ '\'' ∧ c ≠ '"') : parseQuoted l = none := by
  cases l with
  | nil => rfl
  | cons c cs =>
    have := h c rfl
    simp [parseQuoted, this.1, this.2]

theorem parseDict_none : ∀ (fuel : Nat) {l : List Char}, headNot isSpaceChar l →
    (∀ c, l.head? = some c → c ≠ '\x7b') → parseDict fuel l = none
  | 0, _, _, _ => rfl
  | fuel + 1, l, hsp, hh => by
    unfold parseDict
    rw [skipSpaces_eq_self hsp]
    cases l with
    | nil => rfl
    | cons c cs =>
      have hc : c ≠ '\x7b' := hh c rfl
      split
      · rename_i heq
        injection heq with h1 h2
        exact absurd h1 hc
      · rfl

theorem parseBracketed_none : ∀ (fuel : Nat) {l : List Char},
    (∀ c, l.head? = some c → c ≠ '[' ∧ c ≠ '(' ∧ c ≠ '\x7b') →
    parseBracketed fuel l = none
  | 0, _, _ => rfl
  | fuel + 1, l, hh => by
    unfold parseBracketed
    cases l with
    | nil => rfl
    | cons c cs =>
      have h := hh c rfl
      simp [h.1, h.2.1, h.2.2]

theorem parseAtom_none {l : List Char}
    (h : headNot isAtomChar l) : parseAtom l = none := by
  cases l with
  | nil => rfl
  | cons c cs =>
    simp only [headNot] at h
    simp [parseAtom, List.takeWhile, h]

/-- A value parse fails (at any fuel) on empty input or input starting
with a closing delimiter: this is what ends `Combine(atom + value)` and
`delimitedList` correctly. -/
theorem parseValue_delim_none : ∀ (fuel : Nat) {l : List Char}, delimAfter l →
    parseValue fuel l = none
  | 0, _, _ => rfl
  | fuel + 1, l, hd => by
    unfold parseValue
    cases l with
    | nil =>
      have h1 : parseQuoted ([] : List Char) = none := rfl
      have h2 : parseDict fuel ([] : List Char) = none :=
        parseDict_none fuel trivial (by intro c hc; cases hc)
      have h3 : parseBracketed fuel ([] : List Char) = none :=
        parseBracketed_none fuel (by intro c hc; cases hc)
      have h4 : parseAtom ([] : List Char) = none := rfl
      simp only [show skipSpaces [] = [] from rfl, h1, h2, h3, h4]
    | cons c cs =>
      simp only [delimAfter] at hd
      have hsp : headNot isSpaceChar (c :: cs) := by
        simp only [headNot]
        rcases hd with h | h | h | h <;> subst h <;> rfl
      have h1 : parseQuoted (c :: cs) = none := parseQuoted_none (by
        intro c' hc'
        cases hc'
        rcases hd with h | h | h | h <;> subst h <;> exact ⟨by decide, by decide⟩)
      have h2 : parseDict fuel (c :: cs) = none := parseDict_none fuel hsp (by
        intro c' hc'
        cases hc'
        rcases hd with h | h | h | h <;> subst h <;> decide)
      have h3 : parseBracketed fuel (c :: cs) = none := parseBracketed_none fuel (by
        intro c' hc'
        cases hc'
        rcases hd with h | h | h | h <;> subst h <;> exact ⟨by decide, by decide, by decide⟩)
      have h4 : parseAtom (c :: cs) = none := parseAtom_none (by
        simp only [headNot]
        rcases hd with h | h | h | h <;> subst h <;> rfl)
      simp only [skipSpaces_eq_self hsp, h1, h2, h3, h4]

/-- C5, counterexample.  Key order is not always irrelevant: a dict
nested inside a *list* value is rendered through Python `repr`, which
preserves insertion order (keys are sorted only along chains of
dict-valued entries), so `encode({x: [{a: 1, b: 2}]})` and the same tree
with the inner keys permuted render differently. -/
theorem C5_counterexample_dict_inside_list :
    dict_to_fnsuffix [("x", .list [.dict [("a", .int 1), ("b", .int 2)]])]
      = "\x7bx=[\x7b'a': 1, 'b': 2\x7d]\x7d" ∧
    dict_to_fnsuffix [("x", .list [.dict [("b", .int 2), ("a", .int 1)]])]
      = "\x7bx=[\x7b'b': 2, 'a': 1\x7d]\x7d" ∧
    dict_to_fnsuffix [("x", .list [.dict [("a", .int 1), ("b", .int 2)]])]
      ≠ dict_to_fnsuffix [("x", .list [.dict [("b", .int 2), ("a", .int 1)]])] :=
  ⟨rfl, rfl, by decide⟩

/-- C5, amended.  For parameter trees whose dicts bind each key once,
the rendered suffix is invariant under permuting the keys of the
top-level dict and of every dict reached as a dict value (keys are sorted
at each such level before rendering; sets render as sorted lists); dicts
nested inside sequences render via `repr` and keep their insertion order.
Concretely, `encode({float_: 2.52, list_1: ['c','b',4]})` renders as
`{float_=2.52,list_1=['c', 'b', 4]}`. -/
theorem C5_encode_key_order_invariant :
    (∀ d e : PyDict, pyNodupDict d = true → equivDict d e = true →
       dict_to_fnsuffix d = dict_to_fnsuffix e) ∧
    dict_to_fnsuffix
        [("float_", .float "2.52"), ("list_1", .list [.str "c", .str "b", .int 4])]
      = "\x7bfloat_=2.52,list_1=['c', 'b', 4]\x7d" := by
  constructor
  · intro d e hn he
    exact (equiv_render_all (sizeOf (PyVal.dict d))).1 (.dict d) (.dict e) le_rfl
      (by simpa [pyNodupVal] using hn) (by simpa [equivVal] using he)
  · decide

/-- C5, amended, witness: a two-level permutation (outer keys swapped and
inner dict keys swapped) renders identically. -/
theorem C5_encode_key_order_invariant_witness :
    pyNodupDict [("b", .int 2), ("a", .dict [("y", .int 1), ("x", .int 2)])] = true ∧
    equivDict [("b", .int 2), ("a", .dict [("y", .int 1), ("x", .int 2)])]
      [("a", .dict [("x", .int 2), ("y", .int 1)]), ("b", .int 2)] = true ∧
    dict_to_fnsuffix [("b", .int 2), ("a", .dict [("y", .int 1), ("x", .int 2)])]
      = dict_to_fnsuffix [("a", .dict [("x", .int 2), ("y", .int 1)]), ("b", .int 2)] :=
  ⟨rfl, rfl, C5_encode_key_order_invariant.1 _ _ rfl rfl⟩

/-- C4, witness: the first on-disk file of the concrete scenario
satisfies the candidate characterization for the query `{b: 2}`. -/
theorem C4_find_similar_files_characterization_witness :
    "t\x7ba=1,b=2\x7d.pkl" ∈
      _find_similar_files "t" [("b", .int 2)]
        ["t\x7ba=1,b=2\x7d.pkl", "t\x7ba=1,b=3,c=4\x7d.pkl"] :=
  (C4_find_similar_files_characterization.1 "t" [("b", .int 2)]
      ["t\x7ba=1,b=2\x7d.pkl", "t\x7ba=1,b=3,c=4\x7d.pkl"] "t\x7ba=1,b=2\x7d.pkl").mpr
    ⟨by simp, ".pkl", [("a", .str "1"), ("b", .str "2")], rfl, by
      intro pr hpr
      simp only [compareDict, compareVal, List.mem_singleton] at hpr
      subst hpr
      exact ⟨.str "2", rfl, rfl⟩⟩

/-!  Round-trip groundwork: character classes and single-token parses. -/

theorem strData_append (a b : String) : (a ++ b).data = a.data ++ b.data := rfl

theorem strMk_data (s : String) : String.mk s.data = s := rfl

theorem digitChar_ok {k : Nat} (h : k ≤ 9) : isAtomCharOK (digitChar k) = true := by
  interval_cases k <;> decide

theorem natDecimal_ok : ∀ (f n : Nat) (c : Char), c ∈ natDecimal f n → isAtomCharOK c = true
  | 0, _, _, h => absurd h (List.not_mem_nil _)
  | f + 1, n, c, h => by
    unfold natDecimal at h
    split at h
    · rcases List.mem_singleton.mp h with rfl
      exact digitChar_ok (by omega)
    · rcases List.mem_append.mp h with h1 | h1
      · exact natDecimal_ok f (n / 10) c h1
      · rcases List.mem_singleton.mp h1 with rfl
        exact digitChar_ok (by omega)

theorem natDecimal_ne_nil (f n : Nat) : natDecimal (f + 1) n ≠ [] := by
  unfold natDecimal
  split
  · simp
  · simp

theorem intRepr_ok (n : Int) : ∀ c ∈ (intRepr n).data, isAtomCharOK c = true := by
  intro c hc
  unfold intRepr at hc
  split at hc
  · rcases List.mem_cons.mp hc with rfl | h
    · decide
    · exact natDecimal_ok _ _ _ h
  · exact natDecimal_ok _ _ _ hc

theorem intRepr_ne_nil (n : Int) : (intRepr n).data ≠ [] := by
  unfold intRepr
  split
  · simp
  · exact natDecimal_ne_nil _ _

theorem atomOK_facts {c : Char} (h : isAtomCharOK c = true) :
    isAtomChar c = true ∧ isSpaceChar c = false ∧ c ≠ '\'' ∧ c ≠ '"' ∧
      c ≠ '<' ∧ c ≠ '>' ∧ c ≠ '\x7b' ∧ c ≠ '[' ∧ c ≠ '(' := by
  simp only [isAtomCharOK, Bool.and_eq_true, Bool.not_eq_true', decide_eq_true_eq] at h
  obtain ⟨⟨⟨⟨⟨h1, h2⟩, h3⟩, h4⟩, h5⟩, h6⟩ := h
  refine ⟨h1, h2, h3, h4, h5, h6, ?_, ?_, ?_⟩
  · intro heq; subst heq; exact absurd h1 (by decide)
  · intro heq; subst heq; exact absurd h1 (by decide)
  · intro heq; subst heq; exact absurd h1 (by decide)

theorem goodStr_facts {c : Char} (h : goodStrChar c = true) :
    c ≠ '\'' ∧ c ≠ '\\' ∧ c ≠ '<' ∧ c ≠ '>' := by
  simp only [goodStrChar, Bool.and_eq_true, decide_eq_true_eq] at h
  exact ⟨h.1.1.1.1, h.1.1.1.2, h.1.1.2, h.1.2⟩

theorem space_not_word {c : Char} (h : isSpaceChar c = true) : isWordChar c = false := by
  simp only [isSpaceChar, Bool.or_eq_true, decide_eq_true_eq] at h
  rcases h with ((h | h) | h) | h <;> subst h <;> decide

theorem word_not_space {c : Char} (h : isWordChar c = true) : isSpaceChar c = false := by
  cases hs : isSpaceChar c with
  | false => rfl
  | true => rw [space_not_word hs] at h; exact absurd h (by decide)

theorem delim_headNot_space {l : List Char} (h : delimAfter l) : headNot isSpaceChar l := by
  cases l with
  | nil => trivial
  | cons c cs =>
    simp only [delimAfter] at h
    simp only [headNot]
    rcases h with rfl | rfl | rfl | rfl <;> decide

theorem delim_headNot_atom {l : List Char} (h : delimAfter l) : headNot isAtomChar l := by
  cases l with
  | nil => trivial
  | cons c cs =>
    simp only [delimAfter] at h
    simp only [headNot]
    rcases h with rfl | rfl | rfl | rfl <;> decide

theorem parseValue_space (fuel : Nat) (l : List Char) :
    parseValue fuel (' ' :: l) = parseValue fuel l := by
  cases fuel with
  | zero => rfl
  | succ f =>
    have h : skipSpaces (' ' :: l) = skipSpaces l := rfl
    unfold parseValue
    rw [h]

theorem parseElems_space (fuel : Nat) (close : Char) (l : List Char) :
    parseElems fuel close (' ' :: l) = parseElems fuel close l := by
  cases fuel with
  | zero => rfl
  | succ f =>
    unfold parseElems
    rw [parseValue_space]

theorem quotedBody_exact : ∀ (s rest : List Char), (∀ c ∈ s, goodStrChar c = true) →
    quotedBody '\'' (s ++ '\'' :: rest) = some (s, rest)
  | [], rest, _ => by
    show quotedBody '\'' ('\'' :: rest) = some ([], rest)
    unfold quotedBody
    rw [if_pos rfl]
  | c :: s, rest, h => by
    have hc := goodStr_facts (h c (List.mem_cons_self c s))
    have ih := quotedBody_exact s rest (fun d hd => h d (List.mem_cons_of_mem c hd))
    show quotedBody '\'' (c :: (s ++ '\'' :: rest)) = some (c :: s, rest)
    unfold quotedBody
    rw [if_neg hc.1, if_neg hc.2.1, ih]
    rfl

theorem parseValue_quoted (fuel : Nat) (s : String) (rest : List Char)
    (hs : ∀ c ∈ s.data, goodStrChar c = true) :
    parseValue (fuel + 1) (('\'' :: s.data ++ ['\'']) ++ rest)
      = some (.str (String.mk ('\'' :: s.data ++ ['\''])), '\'' :: s.data ++ ['\''], rest) := by
  have hshape : ('\'' :: s.data ++ ['\'']) ++ rest = '\'' :: (s.data ++ '\'' :: rest) := by
    simp
  rw [hshape]
  have hsk : skipSpaces ('\'' :: (s.data ++ '\'' :: rest)) = '\'' :: (s.data ++ '\'' :: rest) :=
    skipSpaces_eq_self (by simp only [headNot]; decide)
  have hq : parseQuoted ('\'' :: (s.data ++ '\'' :: rest))
      = some ('\'' :: s.data ++ ['\''], rest) := by
    simp [parseQuoted, quotedBody_exact s.data rest hs]
  unfold parseValue
  rw [hsk]
  simp only [hq]

theorem parseValue_atom (fuel : Nat) (t rest : List Char) (ht : t ≠ [])
    (hall : ∀ c ∈ t, isAtomCharOK c = true) (hrest : delimAfter rest) :
    parseValue (fuel + 1) (t ++ rest) = some (.str (String.mk t), t, rest) := by
  obtain ⟨c, t', rfl⟩ : ∃ c t', t = c :: t' := by
    cases t with
    | nil => exact absurd rfl ht
    | cons c t' => exact ⟨c, t', rfl⟩
  obtain ⟨ha, hns, hq1, hq2, hlt, hgt, hbr, hsq, hpa⟩ :=
    atomOK_facts (hall c (List.mem_cons_self c t'))
  have hsp : headNot isSpaceChar (c :: t' ++ rest) := by
    simp only [headNot]; exact hns
  have hatomall : ∀ d ∈ c :: t', isAtomChar d = true :=
    fun d hd => (atomOK_facts (hall d hd)).1
  have hta := takeWhile_append_exact (c :: t') rest hatomall (delim_headNot_atom hrest)
  have h1 : parseQuoted (c :: t' ++ rest) = none :=
    parseQuoted_none (by intro d hd; cases hd; exact ⟨hq1, hq2⟩)
  have h2 : parseDict fuel (c :: t' ++ rest) = none :=
    parseDict_none fuel hsp (by intro d hd; cases hd; exact hbr)
  have h3 : parseBracketed fuel (c :: t' ++ rest) = none :=
    parseBracketed_none fuel (by intro d hd; cases hd; exact ⟨hsq, hpa, hbr⟩)
  have h4 : parseAtom (c :: t' ++ rest) = some (c :: t', rest) := by
    unfold parseAtom
    rw [hta.1, hta.2]
  have h5 : parseValue fuel rest = none := parseValue_delim_none fuel hrest
  unfold parseValue
  simp only [skipSpaces_eq_self hsp, h1, h2, h3, h4, h5]

/-- The text of one rendered dict item, `key=value`. -/
def itemRender (p : String × PyVal) : String := p.1 ++ "=" ++ fnValue p.2

/-- The rendered items of a dict, in entry order, comma-joined. -/
def itemsRender (d : PyDict) : String := joinComma (d.map itemRender)

theorem pvFuel_pos : ∀ (v : PyVal), 1 ≤ pvFuel v := by
  intro v
  cases v <;> simp only [pvFuel] <;> omega

theorem perm_sizeOf {α : Type} [SizeOf α] {l1 l2 : List α} (h : l1.Perm l2) :
    sizeOf l1 = sizeOf l2 := by
  induction h with
  | nil => rfl
  | cons x _ ih => simp only [List.cons.sizeOf_spec]; omega
  | swap x y l => simp only [List.cons.sizeOf_spec]; omega
  | trans _ _ ih1 ih2 => omega

theorem pvFuelList_eq_sum (xs : List PyVal) :
    pvFuelList xs = (xs.map (fun x => 1 + pvFuel x)).sum := by
  induction xs with
  | nil => rfl
  | cons x t ih => simp only [pvFuelList, List.map_cons, List.sum_cons]; omega

theorem pvFuelDict_eq_sum (d : PyDict) :
    pvFuelDict d = (d.map (fun p => 2 + pvFuel p.2)).sum := by
  induction d with
  | nil => rfl
  | cons p t ih =>
    obtain ⟨k, v⟩ := p
    simp only [pvFuelDict, List.map_cons, List.sum_cons]
    omega

theorem pvFuelList_perm {xs ys : List PyVal} (h : xs.Perm ys) :
    pvFuelList xs = pvFuelList ys := by
  rw [pvFuelList_eq_sum, pvFuelList_eq_sum]
  exact (h.map _).sum_eq

theorem pvFuelDict_perm {d e : PyDict} (h : d.Perm e) :
    pvFuelDict d = pvFuelDict e := by
  rw [pvFuelDict_eq_sum, pvFuelDict_eq_sum]
  exact (h.map _).sum_eq

theorem goodRVList_iff (xs : List PyVal) :
    goodRVList xs = true ↔ ∀ x ∈ xs, goodRV x = true := by
  induction xs with
  | nil => simp [goodRVList]
  | cons x t ih => simp [goodRVList, Bool.and_eq_true, ih, List.forall_mem_cons]

theorem goodDict_iff (d : PyDict) :
    goodDict d = true ↔ ∀ p ∈ d, goodKey p.1 = true ∧ goodVal p.2 = true := by
  induction d with
  | nil => simp [goodDict]
  | cons p t ih =>
    obtain ⟨k, v⟩ := p
    simp [goodDict, Bool.and_eq_true, ih, List.forall_mem_cons, and_assoc]

theorem orderedInsert_map {α β : Type} (g : α → β) (r : α → α → Prop) (r' : β → β → Prop)
    [DecidableRel r] [DecidableRel r'] (hc : ∀ x y, r' (g x) (g y) ↔ r x y) (a : α) :
    ∀ (l : List α), (l.map g).orderedInsert r' (g a) = (l.orderedInsert r a).map g
  | [] => rfl
  | b :: t => by
    simp only [List.map_cons, List.orderedInsert]
    by_cases h : r a b
    · rw [if_pos ((hc a b).mpr h), if_pos h]
      simp
    · rw [if_neg (fun hx => h ((hc a b).mp hx)), if_neg h, List.map_cons,
        orderedInsert_map g r r' hc a t]

theorem insertionSort_map {α β : Type} (g : α → β) (r : α → α → Prop) (r' : β → β → Prop)
    [DecidableRel r] [DecidableRel r'] (hc : ∀ x y, r' (g x) (g y) ↔ r x y) :
    ∀ (l : List α), (l.map g).insertionSort r' = (l.insertionSort r).map g
  | [] => rfl
  | a :: t => by
    simp only [List.map_cons, List.insertionSort]
    rw [insertionSort_map g r r' hc t, orderedInsert_map g r r' hc a]

theorem fnItems_sortPairs (d : PyDict) :
    (fnItems d).insertionSort entryLeR = fnItems (sortPairsPV d) := by
  rw [fnItems_eq_map, fnItems_eq_map]
  exact insertionSort_map (fun p => (p.1, fnValue p.2)) pairLeR entryLeR
    (fun x y => by unfold entryLeR pairLeR; exact Iff.rfl) d

theorem fnValue_dict_eq (d : PyDict) :
    fnValue (.dict d) = "\x7b" ++ itemsRender (sortPairsPV d) ++ "\x7d" := by
  show "\x7b" ++
      joinComma (((fnItems d).insertionSort entryLeR).map (fun p => p.1 ++ "=" ++ p.2)) ++
      "\x7d" = _
  rw [fnItems_sortPairs, fnItems_eq_map]
  unfold itemsRender
  rw [List.map_map]
  rfl

theorem sortPairsPV_perm (d : PyDict) : (sortPairsPV d).Perm d :=
  List.perm_insertionSort _ _

theorem sortPairsPV_ne_nil {d : PyDict} (h : d ≠ []) : sortPairsPV d ≠ [] := by
  intro h0
  have hl := (sortPairsPV_perm d).length_eq
  rw [h0] at hl
  cases d with
  | nil => exact h rfl
  | cons p t => simp at hl

theorem goodDict_sortPairs {d : PyDict} (h : goodDict d = true) :
    goodDict (sortPairsPV d) = true := by
  rw [goodDict_iff] at h ⊢
  exact fun p hp => h p ((sortPairsPV_perm d).subset hp)

theorem pySorted_perm (xs : List PyVal) : (pySorted xs).Perm xs :=
  List.perm_insertionSort _ _

theorem pySorted_ne_nil {xs : List PyVal} (h : xs ≠ []) : pySorted xs ≠ [] := by
  intro h0
  have hl := (pySorted_perm xs).length_eq
  rw [h0] at hl
  cases xs with
  | nil => exact h rfl
  | cons x t => simp at hl

theorem goodRVList_pySorted {xs : List PyVal} (h : goodRVList xs = true) :
    goodRVList (pySorted xs) = true := by
  rw [goodRVList_iff] at h ⊢
  exact fun x hx => h x ((pySorted_perm xs).subset hx)

theorem itemsRender_ne_nil : ∀ {d : PyDict}, d ≠ [] → (itemsRender d).data ≠ []
  | [], h => absurd rfl h
  | p :: t, _ => by
    unfold itemsRender
    cases t with
    | nil =>
      show (itemRender p).data ≠ []
      unfold itemRender
      simp [strData_append]
    | cons q t' =>
      show ((itemRender p ++ "," ++ joinComma ((q :: t').map itemRender)).data ≠ [])
      simp [strData_append, itemRender]

theorem not_isEmpty_of_ne_nil {α : Type} {l : List α} (h : l ≠ []) : (!l.isEmpty) = true := by
  cases l with
  | nil => exact absurd rfl h
  | cons a t => rfl

/-- The round-trip engine: a good value's rendering (at dict-value or at
repr position) parses back as one grammar value, a good nonempty
sequence's element rendering parses as a `Combine`d element list up to the
closing bracket, and good rendered dict items parse as `delimitedList`
items up to the closing brace — in every case consuming exactly the
rendering and leaving the delimiter-led remainder untouched. -/
theorem parse_render_all : ∀ (n : Nat),
    (∀ (v : PyVal), sizeOf v ≤ n → ∀ (rest : List Char) (fuel : Nat),
        goodVal v = true → delimAfter rest → pvFuel v ≤ fuel →
        ∃ out text, parseValue fuel ((fnValue v).data ++ rest) = some (out, text, rest)) ∧
    (∀ (v : PyVal), sizeOf v ≤ n → ∀ (rest : List Char) (fuel : Nat),
        goodRV v = true → delimAfter rest → pvFuel v ≤ fuel →
        ∃ out text, parseValue fuel ((pyRepr v).data ++ rest) = some (out, text, rest)) ∧
    (∀ (xs : List PyVal), sizeOf xs ≤ n → ∀ (close : Char) (rest : List Char) (fuel : Nat),
        xs ≠ [] → goodRVList xs = true → (close = ']' ∨ close = ')' ∨ close = '\x7d') →
        pvFuelList xs ≤ fuel →
        ∃ text, parseElems fuel close ((pyReprList xs).data ++ close :: rest)
          = some (text, rest)) ∧
    (∀ (e : PyDict), sizeOf e ≤ n → ∀ (rest : List Char) (fuel : Nat),
        e ≠ [] → goodDict e = true → pvFuelDict e ≤ fuel →
        ∃ items text, parseItems fuel ((itemsRender e).data ++ '\x7d' :: rest)
          = some (items, text, rest)) := by
  intro n
  induction n with
  | zero =>
    refine ⟨fun v hle => ?_, fun v hle => ?_, fun xs hle => ?_, fun e hle => ?_⟩
    · cases v <;> simp at hle
    · cases v <;> simp at hle
    · cases xs <;> simp at hle
    · cases e <;> simp at hle
  | succ n ih =>
    obtain ⟨ihA, ihB, ihC, ihD⟩ := ih
    have hB : ∀ (v : PyVal), sizeOf v ≤ n + 1 → ∀ (rest : List Char) (fuel : Nat),
        goodRV v = true → delimAfter rest → pvFuel v ≤ fuel →
        ∃ out text, parseValue fuel ((pyRepr v).data ++ rest) = some (out, text, rest) := by
      intro v hsz rest fuel hg hrest hfuel
      have hf1 : 1 ≤ fuel := le_trans (pvFuel_pos v) hfuel
      cases v with
      | int m =>
        obtain ⟨f, rfl⟩ : ∃ f, fuel = f + 1 := ⟨fuel - 1, by omega⟩
        exact ⟨_, _, parseValue_atom f (intRepr m).data rest (intRepr_ne_nil m)
          (intRepr_ok m) hrest⟩
      | float r =>
        obtain ⟨f, rfl⟩ : ∃ f, fuel = f + 1 := ⟨fuel - 1, by omega⟩
        have hg' : (!r.data.isEmpty && r.data.all isAtomCharOK) = true := hg
        simp only [Bool.and_eq_true, Bool.not_eq_true'] at hg'
        have hne : r.data ≠ [] := by
          cases hr : r.data with
          | nil => rw [hr] at hg'; simp at hg'
          | cons c cs => simp
        exact ⟨_, _, parseValue_atom f r.data rest hne (List.all_eq_true.mp hg'.2) hrest⟩
      | str s =>
        obtain ⟨f, rfl⟩ : ∃ f, fuel = f + 1 := ⟨fuel - 1, by omega⟩
        have hg' : s.data.all goodStrChar = true := hg
        exact ⟨_, _, parseValue_quoted f s rest (List.all_eq_true.mp hg')⟩
      | bool b =>
        obtain ⟨f, rfl⟩ : ∃ f, fuel = f + 1 := ⟨fuel - 1, by omega⟩
        cases b with
        | true =>
          exact ⟨_, _, parseValue_atom f "True".data rest (by decide) (by decide) hrest⟩
        | false =>
          exact ⟨_, _, parseValue_atom f "False".data rest (by decide) (by decide) hrest⟩
      | list xs =>
        have hg' : (!xs.isEmpty && goodRVList xs) = true := hg
        simp only [Bool.and_eq_true, Bool.not_eq_true'] at hg'
        have hfu : 2 + pvFuelList xs ≤ fuel := hfuel
        obtain ⟨f, rfl⟩ : ∃ f, fuel = f + 1 + 1 := ⟨fuel - 2, by omega⟩
        have hxs : sizeOf xs ≤ n := by simp at hsz; omega
        have hne : xs ≠ [] := by
          cases hx0 : xs with
          | nil => rw [hx0] at hg'; simp at hg'
          | cons y ys => simp
        obtain ⟨text, hE⟩ := ihC xs hxs ']' rest f hne hg'.2 (Or.inl rfl) (by omega)
        have hshape : (pyRepr (.list xs)).data ++ rest
            = '[' :: ((pyReprList xs).data ++ ']' :: rest) := by
          show ("[" ++ pyReprList xs ++ "]").data ++ rest = _
          simp [strData_append]
        rw [hshape]
        have hsp : headNot isSpaceChar ('[' :: ((pyReprList xs).data ++ ']' :: rest)) := by
          simp only [headNot]; decide
        have h1 : parseQuoted ('[' :: ((pyReprList xs).data ++ ']' :: rest)) = none := rfl
        have h2 : parseDict (f + 1) ('[' :: ((pyReprList xs).data ++ ']' :: rest)) = none := rfl
        have h3 : parseBracketed (f + 1) ('[' :: ((pyReprList xs).data ++ ']' :: rest))
            = some ('[' :: text, rest) := by
          show (match parseElems f ']' ((pyReprList xs).data ++ ']' :: rest) with
            | some (t2, r2) => some ('[' :: t2, r2)
            | none => none) = some ('[' :: text, rest)
          rw [hE]
        refine ⟨.str (String.mk ('[' :: text)), '[' :: text, ?_⟩
        unfold parseValue
        simp only [skipSpaces_eq_self hsp, h1, h2, h3]
      | tuple xs =>
        have hg0 : (decide (2 ≤ xs.length) && goodRVList xs) = true := hg
        simp only [Bool.and_eq_true, decide_eq_true_eq] at hg0
        cases xs with
        | nil => simp at hg0
        | cons x1 xs1 =>
          cases xs1 with
          | nil => simp at hg0
          | cons x2 xt =>
            have hfu : 2 + pvFuelList (x1 :: x2 :: xt) ≤ fuel := hfuel
            obtain ⟨f, rfl⟩ : ∃ f, fuel = f + 1 + 1 := ⟨fuel - 2, by omega⟩
            have hxs : sizeOf (x1 :: x2 :: xt) ≤ n := by simp at hsz ⊢; omega
            obtain ⟨text, hE⟩ := ihC (x1 :: x2 :: xt) hxs ')' rest f (by simp) hg0.2
              (Or.inr (Or.inl rfl)) (by omega)
            have hshape : (pyRepr (.tuple (x1 :: x2 :: xt))).data ++ rest
                = '(' :: ((pyReprList (x1 :: x2 :: xt)).data ++ ')' :: rest) := by
              show ("(" ++ pyReprList (x1 :: x2 :: xt) ++ ")").data ++ rest = _
              simp [strData_append]
            rw [hshape]
            have hsp : headNot isSpaceChar
                ('(' :: ((pyReprList (x1 :: x2 :: xt)).data ++ ')' :: rest)) := by
              simp only [headNot]; decide
            have h1 : parseQuoted
                ('(' :: ((pyReprList (x1 :: x2 :: xt)).data ++ ')' :: rest)) = none := rfl
            have h2 : parseDict (f + 1)
                ('(' :: ((pyReprList (x1 :: x2 :: xt)).data ++ ')' :: rest)) = none := rfl
            have h3 : parseBracketed (f + 1)
                ('(' :: ((pyReprList (x1 :: x2 :: xt)).data ++ ')' :: rest))
                = some ('(' :: text, rest) := by
              show (match parseElems f ')' ((pyReprList (x1 :: x2 :: xt)).data ++ ')' :: rest) with
                | some (t2, r2) => some ('(' :: t2, r2)
                | none => none) = some ('(' :: text, rest)
              rw [hE]
            refine ⟨.str (String.mk ('(' :: text)), '(' :: text, ?_⟩
            unfold parseValue
            simp only [skipSpaces_eq_self hsp, h1, h2, h3]
      | set xs => exact absurd hg (by simp [goodRV])
      | dict d => exact absurd hg (by simp [goodRV])
    have hC : ∀ (xs : List PyVal), sizeOf xs ≤ n + 1 → ∀ (close : Char) (rest : List Char)
        (fuel : Nat), xs ≠ [] → goodRVList xs = true →
        (close = ']' ∨ close = ')' ∨ close = '\x7d') → pvFuelList xs ≤ fuel →
        ∃ text, parseElems fuel close ((pyReprList xs).data ++ close :: rest)
          = some (text, rest) := by
      intro xs hsz close rest fuel hne hg hclose hfuel
      have hcne : close ≠ ',' := by rcases hclose with rfl | rfl | rfl <;> decide
      have hdel : delimAfter (close :: rest) := by
        rcases hclose with rfl | rfl | rfl <;> simp [delimAfter]
      cases xs with
      | nil => exact absurd rfl hne
      | cons x xt =>
        have hg' : goodRV x = true ∧ goodRVList xt = true := by
          have h0 : (goodRV x && goodRVList xt) = true := hg
          simpa [Bool.and_eq_true] using h0
        have hfu : 1 + pvFuel x + pvFuelList xt ≤ fuel := hfuel
        have hx1 := pvFuel_pos x
        obtain ⟨f, rfl⟩ : ∃ f, fuel = f + 1 := ⟨fuel - 1, by omega⟩
        simp only [List.cons.sizeOf_spec] at hsz
        have hszx : sizeOf x ≤ n := by omega
        cases xt with
        | nil =>
          obtain ⟨out, vtext, hpv⟩ := ihB x hszx (close :: rest) f hg'.1 hdel (by
            simp only [pvFuelList] at hfu; omega)
          refine ⟨vtext ++ [close], ?_⟩
          show parseElems (f + 1) close ((pyRepr x).data ++ close :: rest)
            = some (vtext ++ [close], rest)
          unfold parseElems
          rw [hpv]
          rcases hclose with rfl | rfl | rfl <;> rfl
        | cons y yt =>
          have hszt : sizeOf (y :: yt) ≤ n := by omega
          simp only [pvFuelList] at hfu
          obtain ⟨out, vtext, hpv⟩ := ihB x hszx
            (',' :: ' ' :: ((pyReprList (y :: yt)).data ++ close :: rest)) f hg'.1
            (by simp [delimAfter]) (by omega)
          obtain ⟨text, hrec⟩ := ihC (y :: yt) hszt close rest f (by simp) hg'.2 hclose
            (by simp only [pvFuelList]; omega)
          refine ⟨vtext ++ ',' :: text, ?_⟩
          have hshape : (pyReprList (x :: y :: yt)).data ++ close :: rest
              = (pyRepr x).data ++ ',' :: ' ' :: ((pyReprList (y :: yt)).data ++ close :: rest) := by
            show (pyRepr x ++ ", " ++ pyReprList (y :: yt)).data ++ close :: rest = _
            simp [strData_append]
          rw [hshape]
          unfold parseElems
          rw [hpv]
          simp only [parseElems_space, hrec]
    have hD : ∀ (e : PyDict), sizeOf e ≤ n + 1 → ∀ (rest : List Char) (fuel : Nat),
        e ≠ [] → goodDict e = true → pvFuelDict e ≤ fuel →
        ∃ items text, parseItems fuel ((itemsRender e).data ++ '\x7d' :: rest)
          = some (items, text, rest) := by
      intro e hsz rest fuel hne hg hfuel
      cases e with
      | nil => exact absurd rfl hne
      | cons p t =>
        obtain ⟨k, v⟩ := p
        have hgkv : goodKey k = true ∧ goodVal v = true ∧ goodDict t = true := by
          have h0 : ((goodKey k && goodVal v) && goodDict t) = true := hg
          simp only [Bool.and_eq_true] at h0
          exact ⟨h0.1.1, h0.1.2, h0.2⟩
        have hfu : 2 + pvFuel v + pvFuelDict t ≤ fuel := hfuel
        have hv1 := pvFuel_pos v
        obtain ⟨f, rfl⟩ : ∃ f, fuel = f + 1 := ⟨fuel - 1, by omega⟩
        simp only [List.cons.sizeOf_spec, Prod.mk.sizeOf_spec] at hsz
        have hszv : sizeOf v ≤ n := by omega
        have hk' : k.data.all isWordChar = true := hgkv.1
        have hkall := List.all_eq_true.mp hk'
        cases t with
        | nil =>
          have hshape : (itemsRender [(k, v)]).data ++ '\x7d' :: rest
              = k.data ++ '=' :: ((fnValue v).data ++ '\x7d' :: rest) := by
            show (k ++ "=" ++ fnValue v).data ++ '\x7d' :: rest = _
            simp [strData_append]
          have hkey := takeWhile_append_exact k.data ('=' :: ((fnValue v).data ++ '\x7d' :: rest))
            hkall (by simp only [headNot]; decide)
          have hsp : headNot isSpaceChar (k.data ++ '=' :: ((fnValue v).data ++ '\x7d' :: rest)) := by
            cases hk0 : k.data with
            | nil => simp only [List.nil_append, headNot]; decide
            | cons c cs =>
              simp only [List.cons_append, headNot]
              exact word_not_space (hkall c (by rw [hk0]; exact List.mem_cons_self c cs))
          have hsp2 : skipSpaces ('=' :: ((fnValue v).data ++ '\x7d' :: rest))
              = '=' :: ((fnValue v).data ++ '\x7d' :: rest) :=
            skipSpaces_eq_self (by simp only [headNot]; decide)
          have hsp3 : skipSpaces ('\x7d' :: rest) = '\x7d' :: rest :=
            skipSpaces_eq_self (by simp only [headNot]; decide)
          obtain ⟨out, vtext, hpv⟩ := ihA v hszv ('\x7d' :: rest) f hgkv.2.1
            (by simp [delimAfter]) (by omega)
          refine ⟨[(String.mk k.data, out)], k.data ++ vtext, ?_⟩
          rw [hshape]
          unfold parseItems
          simp only [skipSpaces_eq_self hsp, hkey.1, hkey.2, hsp2, hpv, hsp3]
        | cons q t' =>
          have hszt : sizeOf (q :: t') ≤ n := by omega
          have hshape : (itemsRender ((k, v) :: q :: t')).data ++ '\x7d' :: rest
              = k.data ++ '=' :: ((fnValue v).data
                  ++ ',' :: ((itemsRender (q :: t')).data ++ '\x7d' :: rest)) := by
            show (itemRender (k, v) ++ "," ++ itemsRender (q :: t')).data ++ '\x7d' :: rest = _
            simp [itemRender, strData_append]
          have hkey := takeWhile_append_exact k.data
            ('=' :: ((fnValue v).data ++ ',' :: ((itemsRender (q :: t')).data ++ '\x7d' :: rest)))
            hkall (by simp only [headNot]; decide)
          have hsp : headNot isSpaceChar (k.data
              ++ '=' :: ((fnValue v).data
                ++ ',' :: ((itemsRender (q :: t')).data ++ '\x7d' :: rest))) := by
            cases hk0 : k.data with
            | nil => simp only [List.nil_append, headNot]; decide
            | cons c cs =>
              simp only [List.cons_append, headNot]
              exact word_not_space (hkall c (by rw [hk0]; exact List.mem_cons_self c cs))
          have hsp2 : skipSpaces ('=' :: ((fnValue v).data
                ++ ',' :: ((itemsRender (q :: t')).data ++ '\x7d' :: rest)))
              = '=' :: ((fnValue v).data
                ++ ',' :: ((itemsRender (q :: t')).data ++ '\x7d' :: rest)) :=
            skipSpaces_eq_self (by simp only [headNot]; decide)
          have hsp4 : skipSpaces (',' :: ((itemsRender (q :: t')).data ++ '\x7d' :: rest))
              = ',' :: ((itemsRender (q :: t')).data ++ '\x7d' :: rest) :=
            skipSpaces_eq_self (by simp only [headNot]; decide)
          obtain ⟨out, vtext, hpv⟩ := ihA v hszv
            (',' :: ((itemsRender (q :: t')).data ++ '\x7d' :: rest)) f hgkv.2.1
            (by simp [delimAfter]) (by omega)
          obtain ⟨items, text, hrec⟩ := ihD (q :: t') hszt rest f (by simp) hgkv.2.2 (by omega)
          refine ⟨(String.mk k.data, out) :: items, k.data ++ vtext ++ text, ?_⟩
          rw [hshape]
          unfold parseItems
          simp only [skipSpaces_eq_self hsp, hkey.1, hkey.2, hsp2, hpv, hsp4, hrec]
    have hA : ∀ (v : PyVal), sizeOf v ≤ n + 1 → ∀ (rest : List Char) (fuel : Nat),
        goodVal v = true → delimAfter rest → pvFuel v ≤ fuel →
        ∃ out text, parseValue fuel ((fnValue v).data ++ rest) = some (out, text, rest) := by
      intro v hsz rest fuel hg hrest hfuel
      cases v with
      | int m => exact hB _ hsz rest fuel hg hrest hfuel
      | float r => exact hB _ hsz rest fuel hg hrest hfuel
      | str s => exact hB _ hsz rest fuel hg hrest hfuel
      | bool b => exact hB _ hsz rest fuel hg hrest hfuel
      | list xs => exact hB _ hsz rest fuel hg hrest hfuel
      | tuple xs => exact hB _ hsz rest fuel hg hrest hfuel
      | set xs =>
        have hg0 : ((!xs.isEmpty && allStrElems xs) && goodRVList xs) = true := hg
        simp only [Bool.and_eq_true, Bool.not_eq_true'] at hg0
        have hne : xs ≠ [] := by
          cases h0 : xs with
          | nil => rw [h0] at hg0; simp at hg0
          | cons y ys => simp
        have hglist : goodRV (.list (pySorted xs)) = true := by
          show (!(pySorted xs).isEmpty && goodRVList (pySorted xs)) = true
          rw [Bool.and_eq_true]
          exact ⟨not_isEmpty_of_ne_nil (pySorted_ne_nil hne), goodRVList_pySorted hg0.2⟩
        have hsz' : sizeOf (PyVal.list (pySorted xs)) ≤ n + 1 := by
          have hp := perm_sizeOf (pySorted_perm xs)
          simp at hsz ⊢
          omega
        have hfu' : pvFuel (PyVal.list (pySorted xs)) ≤ fuel := by
          show 2 + pvFuelList (pySorted xs) ≤ fuel
          rw [pvFuelList_perm (pySorted_perm xs)]
          exact hfuel
        exact hB _ hsz' rest fuel hglist hrest hfu'
      | dict d =>
        have hg0 : (!d.isEmpty && goodDict d) = true := hg
        simp only [Bool.and_eq_true, Bool.not_eq_true'] at hg0
        have hdne : d ≠ [] := by
          cases h0 : d with
          | nil => rw [h0] at hg0; simp at hg0
          | cons p t => simp
        have hfu : 2 + pvFuelDict d ≤ fuel := hfuel
        obtain ⟨f, rfl⟩ : ∃ f, fuel = f + 1 + 1 := ⟨fuel - 2, by omega⟩
        have hsd : sizeOf (sortPairsPV d) ≤ n := by
          have hp := perm_sizeOf (sortPairsPV_perm d)
          simp at hsz
          omega
        obtain ⟨items, text, hI⟩ := ihD (sortPairsPV d) hsd rest f
          (sortPairsPV_ne_nil hdne) (goodDict_sortPairs hg0.2)
          (by rw [pvFuelDict_perm (sortPairsPV_perm d)]; omega)
        have hshape : (fnValue (.dict d)).data ++ rest
            = '\x7b' :: ((itemsRender (sortPairsPV d)).data ++ '\x7d' :: rest) := by
          rw [fnValue_dict_eq]
          simp [strData_append]
        rw [hshape]
        have hsp : headNot isSpaceChar
            ('\x7b' :: ((itemsRender (sortPairsPV d)).data ++ '\x7d' :: rest)) := by
          simp only [headNot]; decide
        have h1 : parseQuoted
            ('\x7b' :: ((itemsRender (sortPairsPV d)).data ++ '\x7d' :: rest)) = none := rfl
        have h2 : parseDict (f + 1)
            ('\x7b' :: ((itemsRender (sortPairsPV d)).data ++ '\x7d' :: rest))
            = some (asDict items, text, rest) := by
          show (match parseItems f ((itemsRender (sortPairsPV d)).data ++ '\x7d' :: rest) with
            | some (i2, t2, r2) => some (asDict i2, t2, r2)
            | none => none) = some (asDict items, text, rest)
          rw [hI]
        refine ⟨.dict (asDict items), text, ?_⟩
        unfold parseValue
        simp only [skipSpaces_eq_self hsp, h1, h2]
    exact ⟨hA, hB, hC, hD⟩

/-- Fuel is dominated by rendering length: the fuel bound `pvFuel` of a
good value never exceeds twice the length of its rendering (so the
length-derived fuel `2 * length + 4` of `fnsuffix_to_dict` is always
enough). -/
theorem fuel_len_all : ∀ (n : Nat),
    (∀ (v : PyVal), sizeOf v ≤ n → goodVal v = true →
      pvFuel v ≤ 2 * (fnValue v).data.length) ∧
    (∀ (v : PyVal), sizeOf v ≤ n → goodRV v = true →
      pvFuel v ≤ 2 * (pyRepr v).data.length) ∧
    (∀ (xs : List PyVal), sizeOf xs ≤ n → goodRVList xs = true →
      pvFuelList xs ≤ 2 * (pyReprList xs).data.length + 1) ∧
    (∀ (e : PyDict), sizeOf e ≤ n → goodDict e = true →
      pvFuelDict e ≤ 2 * (itemsRender e).data.length + 2) := by
  intro n
  induction n with
  | zero =>
    refine ⟨fun v hle => ?_, fun v hle => ?_, fun xs hle => ?_, fun e hle => ?_⟩
    · cases v <;> simp at hle
    · cases v <;> simp at hle
    · cases xs <;> simp at hle
    · cases e <;> simp at hle
  | succ n ih =>
    obtain ⟨ihA, ihB, ihC, ihD⟩ := ih
    have hB : ∀ (v : PyVal), sizeOf v ≤ n + 1 → goodRV v = true →
        pvFuel v ≤ 2 * (pyRepr v).data.length := by
      intro v hsz hg
      cases v with
      | int m =>
        have h1 : 1 ≤ (intRepr m).data.length := List.length_pos.mpr (intRepr_ne_nil m)
        show 1 ≤ 2 * (intRepr m).data.length
        omega
      | float r =>
        have hg' : (!r.data.isEmpty && r.data.all isAtomCharOK) = true := hg
        simp only [Bool.and_eq_true, Bool.not_eq_true'] at hg'
        have h1 : 1 ≤ r.data.length := by
          cases hr : r.data with
          | nil => rw [hr] at hg'; simp at hg'
          | cons c cs => simp
        show 1 ≤ 2 * r.data.length
        omega
      | str s =>
        have h1 : (pyRepr (.str s)).data.length = s.data.length + 2 := by
          show (("'" ++ s ++ "'").data).length = _
          simp [strData_append]
        show pvFuel (.str s) ≤ 2 * (pyRepr (.str s)).data.length
        rw [h1]
        show 1 ≤ 2 * (s.data.length + 2)
        omega
      | bool b => cases b <;> decide
      | list xs =>
        have hg' : (!xs.isEmpty && goodRVList xs) = true := hg
        simp only [Bool.and_eq_true, Bool.not_eq_true'] at hg'
        have hxs : sizeOf xs ≤ n := by simp at hsz; omega
        have hc := ihC xs hxs hg'.2
        have h1 : (pyRepr (.list xs)).data.length = (pyReprList xs).data.length + 2 := by
          show (("[" ++ pyReprList xs ++ "]").data).length = _
          simp [strData_append]
        show 2 + pvFuelList xs ≤ 2 * (pyRepr (.list xs)).data.length
        rw [h1]
        omega
      | tuple xs =>
        have hg0 : (decide (2 ≤ xs.length) && goodRVList xs) = true := hg
        simp only [Bool.and_eq_true, decide_eq_true_eq] at hg0
        cases xs with
        | nil => simp at hg0
        | cons x1 xs1 =>
          cases xs1 with
          | nil => simp at hg0
          | cons x2 xt =>
            have hxs : sizeOf (x1 :: x2 :: xt) ≤ n := by simp at hsz ⊢; omega
            have hc := ihC (x1 :: x2 :: xt) hxs hg0.2
            have h1 : (pyRepr (.tuple (x1 :: x2 :: xt))).data.length
                = (pyReprList (x1 :: x2 :: xt)).data.length + 2 := by
              show (("(" ++ pyReprList (x1 :: x2 :: xt) ++ ")").data).length = _
              simp [strData_append]
            show 2 + pvFuelList (x1 :: x2 :: xt)
              ≤ 2 * (pyRepr (.tuple (x1 :: x2 :: xt))).data.length
            rw [h1]
            omega
      | set xs => exact absurd hg (by simp [goodRV])
      | dict d => exact absurd hg (by simp [goodRV])
    have hC : ∀ (xs : List PyVal), sizeOf xs ≤ n + 1 → goodRVList xs = true →
        pvFuelList xs ≤ 2 * (pyReprList xs).data.length + 1 := by
      intro xs hsz hg
      cases xs with
      | nil => show 0 ≤ 2 * ("" : String).data.length + 1; omega
      | cons x xt =>
        have hg' : goodRV x = true ∧ goodRVList xt = true := by
          have h0 : (goodRV x && goodRVList xt) = true := hg
          simpa [Bool.and_eq_true] using h0
        simp only [List.cons.sizeOf_spec] at hsz
        have hbx := ihB x (by omega) hg'.1
        cases xt with
        | nil =>
          show 1 + pvFuel x + 0 ≤ 2 * (pyRepr x).data.length + 1
          omega
        | cons y yt =>
          have hct := ihC (y :: yt) (by omega) hg'.2
          have h1 : (pyReprList (x :: y :: yt)).data.length
              = (pyRepr x).data.length + 2 + (pyReprList (y :: yt)).data.length := by
            show ((pyRepr x ++ ", " ++ pyReprList (y :: yt)).data).length = _
            simp [strData_append]
            omega
          show 1 + pvFuel x + pvFuelList (y :: yt)
            ≤ 2 * (pyReprList (x :: y :: yt)).data.length + 1
          rw [h1]
          omega
    have hD : ∀ (e : PyDict), sizeOf e ≤ n + 1 → goodDict e = true →
        pvFuelDict e ≤ 2 * (itemsRender e).data.length + 2 := by
      intro e hsz hg
      cases e with
      | nil => show 0 ≤ 2 * ("" : String).data.length + 2; omega
      | cons p t =>
        obtain ⟨k, v⟩ := p
        have hgkv : goodKey k = true ∧ goodVal v = true ∧ goodDict t = true := by
          have h0 : ((goodKey k && goodVal v) && goodDict t) = true := hg
          simp only [Bool.and_eq_true] at h0
          exact ⟨h0.1.1, h0.1.2, h0.2⟩
        simp only [List.cons.sizeOf_spec, Prod.mk.sizeOf_spec] at hsz
        have hav := ihA v (by omega) hgkv.2.1
        cases t with
        | nil =>
          have h1 : (itemsRender [(k, v)]).data.length
              = k.data.length + 1 + (fnValue v).data.length := by
            show ((k ++ "=" ++ fnValue v).data).length = _
            simp [strData_append]
            omega
          show 2 + pvFuel v + 0 ≤ 2 * (itemsRender [(k, v)]).data.length + 2
          rw [h1]
          omega
        | cons q t' =>
          have hdt := ihD (q :: t') (by omega) hgkv.2.2
          have h1 : (itemsRender ((k, v) :: q :: t')).data.length
              = k.data.length + 1 + (fnValue v).data.length + 1
                + (itemsRender (q :: t')).data.length := by
            show ((itemRender (k, v) ++ "," ++ itemsRender (q :: t')).data).length = _
            simp [itemRender, strData_append]
            omega
          show 2 + pvFuel v + pvFuelDict (q :: t')
            ≤ 2 * (itemsRender ((k, v) :: q :: t')).data.length + 2
          rw [h1]
          omega
    have hA : ∀ (v : PyVal), sizeOf v ≤ n + 1 → goodVal v = true →
        pvFuel v ≤ 2 * (fnValue v).data.length := by
      intro v hsz hg
      cases v with
      | int m => exact hB _ hsz hg
      | float r => exact hB _ hsz hg
      | str s => exact hB _ hsz hg
      | bool b => exact hB _ hsz hg
      | list xs => exact hB _ hsz hg
      | tuple xs => exact hB _ hsz hg
      | set xs =>
        have hg0 : ((!xs.isEmpty && allStrElems xs) && goodRVList xs) = true := hg
        simp only [Bool.and_eq_true, Bool.not_eq_true'] at hg0
        have hxs : sizeOf (pySorted xs) ≤ n := by
          have hp := perm_sizeOf (pySorted_perm xs)
          simp at hsz
          omega
        have hc := ihC (pySorted xs) hxs (goodRVList_pySorted hg0.2)
        have h1 : (fnValue (.set xs)).data.length
            = (pyReprList (pySorted xs)).data.length + 2 := by
          show (("[" ++ pyReprList (pySorted xs) ++ "]").data).length = _
          simp [strData_append]
        show 2 + pvFuelList xs ≤ 2 * (fnValue (.set xs)).data.length
        rw [h1, pvFuelList_perm (pySorted_perm xs).symm]
        omega
      | dict d =>
        have hg0 : (!d.isEmpty && goodDict d) = true := hg
        simp only [Bool.and_eq_true, Bool.not_eq_true'] at hg0
        have hsd : sizeOf (sortPairsPV d) ≤ n := by
          have hp := perm_sizeOf (sortPairsPV_perm d)
          simp at hsz
          omega
        have hdd := ihD (sortPairsPV d) hsd (goodDict_sortPairs hg0.2)
        have h1 : (fnValue (.dict d)).data.length
            = (itemsRender (sortPairsPV d)).data.length + 2 := by
          rw [fnValue_dict_eq]
          simp [strData_append]
        show 2 + pvFuelDict d ≤ 2 * (fnValue (.dict d)).data.length
        rw [h1, pvFuelDict_perm (sortPairsPV_perm d).symm]
        omega
    exact ⟨hA, hB, hC, hD⟩

theorem atomOK_no_angle {c : Char} (h : isAtomCharOK c = true) : c ≠ '<' ∧ c ≠ '>' :=
  ⟨(atomOK_facts h).2.2.2.2.1, (atomOK_facts h).2.2.2.2.2.1⟩

theorem wordChar_no_angle {c : Char} (h : isWordChar c = true) : c ≠ '<' ∧ c ≠ '>' := by
  constructor
  · intro heq; subst heq; exact absurd h (by decide)
  · intro heq; subst heq; exact absurd h (by decide)

theorem mem_joinComma : ∀ (l : List String) (c : Char), c ∈ (joinComma l).data →
    c = ',' ∨ ∃ s ∈ l, c ∈ s.data
  | [], c, hc => absurd hc (List.not_mem_nil c)
  | [x], c, hc => Or.inr ⟨x, List.mem_singleton_self x, hc⟩
  | x :: y :: t, c, hc => by
    have hsh : (joinComma (x :: y :: t)).data = x.data ++ ',' :: (joinComma (y :: t)).data := by
      show (x ++ "," ++ joinComma (y :: t)).data = _
      simp [strData_append]
    rw [hsh] at hc
    rcases List.mem_append.mp hc with h1 | h1
    · exact Or.inr ⟨x, List.mem_cons_self x _, h1⟩
    · rcases List.mem_cons.mp h1 with rfl | h2
      · exact Or.inl rfl
      · rcases mem_joinComma (y :: t) c h2 with h3 | ⟨s, hs, hcs⟩
        · exact Or.inl h3
        · exact Or.inr ⟨s, List.mem_cons_of_mem x hs, hcs⟩

theorem sizeOf_mem_le {α : Type} [SizeOf α] :
    ∀ {l : List α} {a : α}, a ∈ l → sizeOf a + 1 ≤ sizeOf l := by
  intro l
  induction l with
  | nil => intro a h; cases h
  | cons x t ih =>
    intro a h
    rcases List.mem_cons.mp h with rfl | h2
    · simp only [List.cons.sizeOf_spec]; omega
    · have := ih h2
      simp only [List.cons.sizeOf_spec]
      omega

/-- Good renderings contain neither `<` nor `>`: the encoder's
Windows-forbidden-character check never fires on them. -/
theorem no_angle_all : ∀ (n : Nat),
    (∀ (v : PyVal), sizeOf v ≤ n → goodVal v = true →
      ∀ c ∈ (fnValue v).data, c ≠ '<' ∧ c ≠ '>') ∧
    (∀ (v : PyVal), sizeOf v ≤ n → goodRV v = true →
      ∀ c ∈ (pyRepr v).data, c ≠ '<' ∧ c ≠ '>') ∧
    (∀ (xs : List PyVal), sizeOf xs ≤ n → goodRVList xs = true →
      ∀ c ∈ (pyReprList xs).data, c ≠ '<' ∧ c ≠ '>') ∧
    (∀ (e : PyDict), sizeOf e ≤ n → goodDict e = true →
      ∀ c ∈ (itemsRender e).data, c ≠ '<' ∧ c ≠ '>') := by
  intro n
  induction n with
  | zero =>
    refine ⟨fun v hle => ?_, fun v hle => ?_, fun xs hle => ?_, fun e hle => ?_⟩
    · cases v <;> simp at hle
    · cases v <;> simp at hle
    · cases xs <;> simp at hle
    · cases e <;> simp at hle
  | succ n ih =>
    obtain ⟨ihA, ihB, ihC, ihD⟩ := ih
    have hB : ∀ (v : PyVal), sizeOf v ≤ n + 1 → goodRV v = true →
        ∀ c ∈ (pyRepr v).data, c ≠ '<' ∧ c ≠ '>' := by
      intro v hsz hg
      cases v with
      | int m => exact fun c hc => atomOK_no_angle (intRepr_ok m c hc)
      | float r =>
        have hg' : (!r.data.isEmpty && r.data.all isAtomCharOK) = true := hg
        simp only [Bool.and_eq_true, Bool.not_eq_true'] at hg'
        exact fun c hc => atomOK_no_angle (List.all_eq_true.mp hg'.2 c hc)
      | str s =>
        have hg' : s.data.all goodStrChar = true := hg
        intro c hc
        have hc' : c ∈ '\'' :: (s.data ++ ['\'']) := hc
        rcases List.mem_cons.mp hc' with rfl | h1
        · exact ⟨by decide, by decide⟩
        · rcases List.mem_append.mp h1 with h2 | h2
          · have hf := goodStr_facts (List.all_eq_true.mp hg' c h2)
            exact ⟨hf.2.2.1, hf.2.2.2⟩
          · rcases List.mem_singleton.mp h2 with rfl
            exact ⟨by decide, by decide⟩
      | bool b => cases b <;> decide
      | list xs =>
        have hg' : (!xs.isEmpty && goodRVList xs) = true := hg
        simp only [Bool.and_eq_true, Bool.not_eq_true'] at hg'
        have hxs : sizeOf xs ≤ n := by simp at hsz; omega
        intro c hc
        have hsh : (pyRepr (.list xs)).data = '[' :: ((pyReprList xs).data ++ [']']) := by
          show ("[" ++ pyReprList xs ++ "]").data = _
          simp [strData_append]
        rw [hsh] at hc
        rcases List.mem_cons.mp hc with rfl | h1
        · exact ⟨by decide, by decide⟩
        · rcases List.mem_append.mp h1 with h2 | h2
          · exact ihC xs hxs hg'.2 c h2
          · rcases List.mem_singleton.mp h2 with rfl
            exact ⟨by decide, by decide⟩
      | tuple xs =>
        have hg0 : (decide (2 ≤ xs.length) && goodRVList xs) = true := hg
        simp only [Bool.and_eq_true, decide_eq_true_eq] at hg0
        cases xs with
        | nil => simp at hg0
        | cons x1 xs1 =>
          cases xs1 with
          | nil => simp at hg0
          | cons x2 xt =>
            have hxs : sizeOf (x1 :: x2 :: xt) ≤ n := by simp at hsz ⊢; omega
            intro c hc
            have hsh : (pyRepr (.tuple (x1 :: x2 :: xt))).data
                = '(' :: ((pyReprList (x1 :: x2 :: xt)).data ++ [')']) := by
              show ("(" ++ pyReprList (x1 :: x2 :: xt) ++ ")").data = _
              simp [strData_append]
            rw [hsh] at hc
            rcases List.mem_cons.mp hc with rfl | h1
            · exact ⟨by decide, by decide⟩
            · rcases List.mem_append.mp h1 with h2 | h2
              · exact ihC (x1 :: x2 :: xt) hxs hg0.2 c h2
              · rcases List.mem_singleton.mp h2 with rfl
                exact ⟨by decide, by decide⟩
      | set xs => exact absurd hg (by simp [goodRV])
      | dict d => exact absurd hg (by simp [goodRV])
    have hC : ∀ (xs : List PyVal), sizeOf xs ≤ n + 1 → goodRVList xs = true →
        ∀ c ∈ (pyReprList xs).data, c ≠ '<' ∧ c ≠ '>' := by
      intro xs hsz hg
      cases xs with
      | nil => intro c hc; exact absurd hc (List.not_mem_nil c)
      | cons x xt =>
        have hg' : goodRV x = true ∧ goodRVList xt = true := by
          have h0 : (goodRV x && goodRVList xt) = true := hg
          simpa [Bool.and_eq_true] using h0
        simp only [List.cons.sizeOf_spec] at hsz
        cases xt with
        | nil => exact fun c hc => hB x (by omega) hg'.1 c hc
        | cons y yt =>
          intro c hc
          have hsh : (pyReprList (x :: y :: yt)).data
              = (pyRepr x).data ++ ',' :: ' ' :: (pyReprList (y :: yt)).data := by
            show (pyRepr x ++ ", " ++ pyReprList (y :: yt)).data = _
            simp [strData_append]
          rw [hsh] at hc
          rcases List.mem_append.mp hc with h1 | h1
          · exact hB x (by omega) hg'.1 c h1
          · rcases List.mem_cons.mp h1 with rfl | h2
            · exact ⟨by decide, by decide⟩
            · rcases List.mem_cons.mp h2 with rfl | h3
              · exact ⟨by decide, by decide⟩
              · exact ihC (y :: yt) (by omega) hg'.2 c h3
    have hD : ∀ (e : PyDict), sizeOf e ≤ n + 1 → goodDict e = true →
        ∀ c ∈ (itemsRender e).data, c ≠ '<' ∧ c ≠ '>' := by
      intro e hsz hg c hc
      rcases mem_joinComma (e.map itemRender) c hc with rfl | ⟨s, hs, hcs⟩
      · exact ⟨by decide, by decide⟩
      · rcases List.mem_map.mp hs with ⟨p, hp, rfl⟩
        obtain ⟨k, v⟩ := p
        have hgp := (goodDict_iff e).mp hg (k, v) hp
        have hsh : (itemRender (k, v)).data = k.data ++ '=' :: (fnValue v).data := by
          show (k ++ "=" ++ fnValue v).data = _
          simp [strData_append]
        rw [hsh] at hcs
        rcases List.mem_append.mp hcs with h1 | h1
        · exact wordChar_no_angle (List.all_eq_true.mp hgp.1 c h1)
        · rcases List.mem_cons.mp h1 with rfl | h2
          · exact ⟨by decide, by decide⟩
          · have hszv : sizeOf v ≤ n := by
              have hm := sizeOf_mem_le hp
              simp only [Prod.mk.sizeOf_spec] at hm
              omega
            exact ihA v hszv hgp.2 c h2
    have hA : ∀ (v : PyVal), sizeOf v ≤ n + 1 → goodVal v = true →
        ∀ c ∈ (fnValue v).data, c ≠ '<' ∧ c ≠ '>' := by
      intro v hsz hg
      cases v with
      | int m => exact hB _ hsz hg
      | float r => exact hB _ hsz hg
      | str s => exact hB _ hsz hg
      | bool b => exact hB _ hsz hg
      | list xs => exact hB _ hsz hg
      | tuple xs => exact hB _ hsz hg
      | set xs =>
        have hg0 : ((!xs.isEmpty && allStrElems xs) && goodRVList xs) = true := hg
        simp only [Bool.and_eq_true, Bool.not_eq_true'] at hg0
        have hne : xs ≠ [] := by
          cases h0 : xs with
          | nil => rw [h0] at hg0; simp at hg0
          | cons y ys => simp
        have hglist : goodRV (.list (pySorted xs)) = true := by
          show (!(pySorted xs).isEmpty && goodRVList (pySorted xs)) = true
          rw [Bool.and_eq_true]
          exact ⟨not_isEmpty_of_ne_nil (pySorted_ne_nil hne), goodRVList_pySorted hg0.2⟩
        have hsz' : sizeOf (PyVal.list (pySorted xs)) ≤ n + 1 := by
          have hp := perm_sizeOf (pySorted_perm xs)
          simp at hsz ⊢
          omega
        exact hB _ hsz' hglist
      | dict d =>
        have hg0 : (!d.isEmpty && goodDict d) = true := hg
        simp only [Bool.and_eq_true, Bool.not_eq_true'] at hg0
        have hsd : sizeOf (sortPairsPV d) ≤ n := by
          have hp := perm_sizeOf (sortPairsPV_perm d)
          simp at hsz
          omega
        intro c hc
        rw [fnValue_dict_eq] at hc
        have hsh : ("\x7b" ++ itemsRender (sortPairsPV d) ++ "\x7d").data
            = '\x7b' :: ((itemsRender (sortPairsPV d)).data ++ ['\x7d']) := by
          simp [strData_append]
        rw [hsh] at hc
        rcases List.mem_cons.mp hc with rfl | h1
        · exact ⟨by decide, by decide⟩
        · rcases List.mem_append.mp h1 with h2 | h2
          · exact ihD (sortPairsPV d) hsd (goodDict_sortPairs hg0.2) c h2
          · rcases List.mem_singleton.mp h2 with rfl
            exact ⟨by decide, by decide⟩
    exact ⟨hA, hB, hC, hD⟩

theorem convertListlike_id_all : ∀ (n : Nat),
    (∀ (v : PyVal), sizeOf v ≤ n → convertListlikeVal v = v) ∧
    (∀ (d : PyDict), sizeOf d ≤ n → _convert_listlike_fn_params d = d) := by
  intro n
  induction n with
  | zero =>
    refine ⟨fun v hle => ?_, fun d hle => ?_⟩
    · cases v <;> simp at hle
    · cases d <;> simp at hle
  | succ n ih =>
    obtain ⟨ihv, ihd⟩ := ih
    refine ⟨fun v hle => ?_, fun d hle => ?_⟩
    · cases v with
      | dict d =>
        have hd : sizeOf d ≤ n := by simp at hle; omega
        show PyVal.dict (_convert_listlike_fn_params d) = PyVal.dict d
        rw [ihd d hd]
      | int m => rfl
      | float r => rfl
      | str s => rfl
      | bool b => rfl
      | list xs => rfl
      | tuple xs => rfl
      | set xs => rfl
    · cases d with
      | nil => rfl
      | cons p t =>
        obtain ⟨k, v⟩ := p
        simp only [List.cons.sizeOf_spec, Prod.mk.sizeOf_spec] at hle
        show (k, convertListlikeVal v) :: _convert_listlike_fn_params t = (k, v) :: t
        rw [ihv v (by omega), ihd t (by omega)]

theorem convertListlike_id (d : PyDict) : _convert_listlike_fn_params d = d :=
  (convertListlike_id_all (sizeOf d)).2 d le_rfl

theorem strAssoc_mem : ∀ (l : List (String × String)) (k s : String),
    strAssoc k l = some s → ∃ k', (k', s) ∈ l
  | [], _, _, h => by cases h
  | (k0, v0) :: t, k, s, h => by
    unfold strAssoc at h
    split at h
    · injection h with h1
      exact ⟨k0, by rw [← h1]; exact List.mem_cons_self _ _⟩
    · obtain ⟨k', hm⟩ := strAssoc_mem t k s h
      exact ⟨k', List.mem_cons_of_mem _ hm⟩

theorem goodKey_shortenKey {k : String} (h : goodKey k = true) :
    goodKey (shortenKey k) = true := by
  unfold shortenKey
  cases hs : strAssoc k SHORTEN_PARAM_MAP with
  | none => exact h
  | some s =>
    obtain ⟨k', hm⟩ := strAssoc_mem _ _ _ hs
    show goodKey s = true
    simp only [SHORTEN_PARAM_MAP, List.mem_cons, List.not_mem_nil, or_false] at hm
    rcases hm with h0 | h0 | h0 | h0 | h0 | h0 | h0 <;>
      (injection h0 with h1 h2; rw [h2]; decide)

theorem recKeyMap_ne_nil {f : String → String} {d : PyDict} (h : d ≠ []) :
    recKeyMap f d ≠ [] := by
  cases d with
  | nil => exact absurd rfl h
  | cons p t =>
    obtain ⟨k, v⟩ := p
    show (f k, recKeyMapVal f v) :: recKeyMap f t ≠ []
    simp

theorem recKeyMap_good_all : ∀ (n : Nat),
    (∀ (v : PyVal), sizeOf v ≤ n → goodVal v = true →
      goodVal (recKeyMapVal shortenKey v) = true) ∧
    (∀ (d : PyDict), sizeOf d ≤ n → goodDict d = true →
      goodDict (recKeyMap shortenKey d) = true) := by
  intro n
  induction n with
  | zero =>
    refine ⟨fun v hle => ?_, fun d hle => ?_⟩
    · cases v <;> simp at hle
    · cases d <;> simp at hle
  | succ n ih =>
    obtain ⟨ihv, ihd⟩ := ih
    refine ⟨fun v hle hg => ?_, fun d hle hg => ?_⟩
    · cases v with
      | dict d =>
        have hd : sizeOf d ≤ n := by simp at hle; omega
        have hg0 : (!d.isEmpty && goodDict d) = true := hg
        simp only [Bool.and_eq_true, Bool.not_eq_true'] at hg0
        have hne : d ≠ [] := by
          cases h0 : d with
          | nil => rw [h0] at hg0; simp at hg0
          | cons p t => simp
        show (!(recKeyMap shortenKey d).isEmpty && goodDict (recKeyMap shortenKey d)) = true
        rw [Bool.and_eq_true]
        exact ⟨not_isEmpty_of_ne_nil (recKeyMap_ne_nil hne), ihd d hd hg0.2⟩
      | int m => exact hg
      | float r => exact hg
      | str s => exact hg
      | bool b => exact hg
      | list xs => exact hg
      | tuple xs => exact hg
      | set xs => exact hg
    · cases d with
      | nil => exact hg
      | cons p t =>
        obtain ⟨k, v⟩ := p
        simp only [List.cons.sizeOf_spec, Prod.mk.sizeOf_spec] at hle
        have hg0 : ((goodKey k && goodVal v) && goodDict t) = true := hg
        simp only [Bool.and_eq_true] at hg0
        show ((goodKey (shortenKey k) && goodVal (recKeyMapVal shortenKey v))
            && goodDict (recKeyMap shortenKey t)) = true
        simp only [Bool.and_eq_true]
        exact ⟨⟨goodKey_shortenKey hg0.1.1, ihv v (by omega) hg0.1.2⟩,
          ihd t (by omega) hg0.2⟩

theorem recKeyMap_good {d : PyDict} (h : goodDict d = true) :
    goodDict (recKeyMap shortenKey d) = true :=
  (recKeyMap_good_all (sizeOf d)).2 d le_rfl h

theorem firstIdxOf_append {c : Char} : ∀ (A B : List Char), c ∉ A →
    firstIdxOf c (A ++ c :: B) = some A.length
  | [], B, _ => by
    show firstIdxOf c (c :: B) = some 0
    unfold firstIdxOf
    rw [if_pos rfl]
  | a :: A', B, h => by
    have ha : a ≠ c := fun heq => h (heq ▸ List.mem_cons_self a A')
    have ih := firstIdxOf_append A' B (fun hm => h (List.mem_cons_of_mem a hm))
    show firstIdxOf c (a :: (A' ++ c :: B)) = some (A'.length + 1)
    unfold firstIdxOf
    rw [if_neg (fun heq => ha heq), ih]
    rfl

theorem lastIdxOf_eq_none {c : Char} : ∀ (l : List Char), c ∉ l → lastIdxOf c l = none
  | [], _ => rfl
  | x :: xs, h => by
    have hx : x ≠ c := fun heq => h (heq ▸ List.mem_cons_self x xs)
    have ih := lastIdxOf_eq_none xs (fun hm => h (List.mem_cons_of_mem x hm))
    unfold lastIdxOf
    rw [ih]
    exact if_neg (fun heq => hx heq)

theorem lastIdxOf_append {c : Char} : ∀ (A B : List Char), c ∉ B →
    lastIdxOf c (A ++ c :: B) = some A.length
  | [], B, h => by
    show lastIdxOf c (c :: B) = some 0
    unfold lastIdxOf
    rw [lastIdxOf_eq_none B h]
    exact if_pos rfl
  | a :: A', B, h => by
    have ih := lastIdxOf_append A' B h
    show lastIdxOf c (a :: (A' ++ c :: B)) = some (A'.length + 1)
    unfold lastIdxOf
    rw [ih]

theorem splitOnBracePair_no_brace : ∀ (l : List Char), '\x7b' ∉ l →
    splitOnBracePair l = [l]
  | [], _ => rfl
  | c :: rest, h => by
    have hc : c ≠ '\x7b' := fun heq => h (heq ▸ List.mem_cons_self c rest)
    have ih := splitOnBracePair_no_brace rest (fun hm => h (List.mem_cons_of_mem c hm))
    unfold splitOnBracePair
    split
    · rename_i heq
      cases heq
    · rename_i heq
      injection heq with h1 h2
      exact absurd h1 hc
    · rename_i c' rest' heq
      injection heq with h1 h2
      subst h1
      subst h2
      rw [ih]

theorem splitOnBracePair_exact : ∀ (A B : List Char), '\x7b' ∉ A → '\x7b' ∉ B →
    splitOnBracePair (A ++ '\x7b' :: '\x7d' :: B) = [A, B]
  | [], B, _, hB => by
    show [] :: splitOnBracePair B = [[], B]
    rw [splitOnBracePair_no_brace B hB]
  | a :: A', B, hA, hB => by
    have ha : a ≠ '\x7b' := fun heq => hA (heq ▸ List.mem_cons_self a A')
    have ih := splitOnBracePair_exact A' B (fun hm => hA (List.mem_cons_of_mem a hm)) hB
    show splitOnBracePair (a :: (A' ++ '\x7b' :: '\x7d' :: B)) = [a :: A', B]
    unfold splitOnBracePair
    split
    · rename_i heq
      cases heq
    · rename_i heq
      injection heq with h1 h2
      exact absurd h1 ha
    · rename_i c' rest' heq
      injection heq with h1 h2
      subst h1
      subst h2
      rw [ih]

theorem nameChars {s : String}
    (h : s.data.all (fun c => !(c = '\x7b' || c = '<' || c = '>')) = true) :
    ∀ c ∈ s.data, c ≠ '\x7b' ∧ c ≠ '<' ∧ c ≠ '>' := by
  intro c hc
  have h0 := List.all_eq_true.mp h c hc
  simp only [Bool.not_eq_true', Bool.or_eq_false_iff, decide_eq_false_iff_not] at h0
  exact ⟨h0.1.1, h0.1.2, h0.2⟩

theorem extChars {s : String}
    (h : s.data.all (fun c => !(c = '\x7b' || c = '\x7d' || c = '<' || c = '>')) = true) :
    ∀ c ∈ s.data, c ≠ '\x7b' ∧ c ≠ '\x7d' ∧ c ≠ '<' ∧ c ≠ '>' := by
  intro c hc
  have h0 := List.all_eq_true.mp h c hc
  simp only [Bool.not_eq_true', Bool.or_eq_false_iff, decide_eq_false_iff_not] at h0
  exact ⟨h0.1.1.1, h0.1.1.2, h0.1.2, h0.2⟩

/-- The character shape of the encoder's output: logical name, `{`, the
sorted rendered items of the shortened params, `}`, dotted extension. -/
theorem fn_data_shape (fn_type : String) (fn_ext : Option String) (params : PyDict) :
    (fn_type ++ dict_to_fnsuffix (_convert_listlike_fn_params (recKeyMap shortenKey params))
        ++ normExt fn_ext).data
      = fn_type.data
          ++ '\x7b' :: ((itemsRender (sortPairsPV (recKeyMap shortenKey params))).data
            ++ '\x7d' :: (normExt fn_ext).data) := by
  rw [convertListlike_id]
  rw [show dict_to_fnsuffix (recKeyMap shortenKey params)
      = "\x7b" ++ itemsRender (sortPairsPV (recKeyMap shortenKey params)) ++ "\x7d"
    from fnValue_dict_eq _]
  simp [strData_append]

/-- With no forbidden character anywhere, `default_standard_filename`
succeeds and returns exactly `name + suffix + ext`. -/
theorem encode_ok (fn_type : String) (fn_ext : Option String) (params : PyDict)
    (hname : fn_type.data.all (fun c => !(c = '\x7b' || c = '<' || c = '>')) = true)
    (hext : (normExt fn_ext).data.all
      (fun c => !(c = '\x7b' || c = '\x7d' || c = '<' || c = '>')) = true)
    (hgood : goodDict params = true)
    (hcol : SHORTEN_PARAM_MAP.any (fun p => hasKey p.1 params && hasKey p.2 params) = false) :
    default_standard_filename fn_type fn_ext params
      = .ok (fn_type ++ dict_to_fnsuffix (_convert_listlike_fn_params
          (recKeyMap shortenKey params)) ++ normExt fn_ext) := by
  have hsdg : goodDict (sortPairsPV (recKeyMap shortenKey params)) = true :=
    goodDict_sortPairs (recKeyMap_good hgood)
  have hangle : ∀ c ∈ (fn_type ++ dict_to_fnsuffix (_convert_listlike_fn_params
      (recKeyMap shortenKey params)) ++ normExt fn_ext).data, c ≠ '<' ∧ c ≠ '>' := by
    intro c hc
    rw [fn_data_shape] at hc
    rcases List.mem_append.mp hc with h1 | h1
    · exact ⟨(nameChars hname c h1).2.1, (nameChars hname c h1).2.2⟩
    · rcases List.mem_cons.mp h1 with rfl | h2
      · exact ⟨by decide, by decide⟩
      · rcases List.mem_append.mp h2 with h3 | h3
        · exact (no_angle_all (sizeOf (sortPairsPV (recKeyMap shortenKey params)))).2.2.2
            _ le_rfl hsdg c h3
        · rcases List.mem_cons.mp h3 with rfl | h4
          · exact ⟨by decide, by decide⟩
          · exact ⟨(extChars hext c h4).2.2.1, (extChars hext c h4).2.2.2⟩
  have hlt : hasChar '<' (fn_type ++ dict_to_fnsuffix (_convert_listlike_fn_params
      (recKeyMap shortenKey params)) ++ normExt fn_ext) = false := by
    have h0 : '<' ∉ (fn_type ++ dict_to_fnsuffix (_convert_listlike_fn_params
        (recKeyMap shortenKey params)) ++ normExt fn_ext).data :=
      fun hc => (hangle '<' hc).1 rfl
    unfold hasChar
    simpa using h0
  have hgt : hasChar '>' (fn_type ++ dict_to_fnsuffix (_convert_listlike_fn_params
      (recKeyMap shortenKey params)) ++ normExt fn_ext) = false := by
    have h0 : '>' ∉ (fn_type ++ dict_to_fnsuffix (_convert_listlike_fn_params
        (recKeyMap shortenKey params)) ++ normExt fn_ext).data :=
      fun hc => (hangle '>' hc).2 rfl
    unfold hasChar
    simpa using h0
  simp [default_standard_filename, hcol, hlt, hgt]

/-- Decoding a `name{items}ext` shape with a parsable nonempty item text:
`parse_standard_filename` recovers the name and the extension (and the
grammar-parsed, key-mapped params). -/
theorem parse_std_generic (A I E : List Char) (hbrA : '\x7b' ∉ A) ( _hbrE : '\x7b' ∉ E)
    (hclE : '\x7d' ∉ E) (hIne : I ≠ [])
    (items : List (String × Pval)) (text : List Char)
    (hitems : parseItems (2 * (I.length + 2) + 3) (I ++ ['\x7d']) = some (items, text, [])) :
    parse_standard_filename (String.mk (A ++ '\x7b' :: (I ++ '\x7d' :: E)))
      = .ok (String.mk A, String.mk E, pvalKeyMap unshortenKey (asDict items)) := by
  have hdata : (String.mk (A ++ '\x7b' :: (I ++ '\x7d' :: E))).data
      = A ++ '\x7b' :: (I ++ '\x7d' :: E) := rfl
  have hfirst : firstIdxOf '\x7b' (A ++ '\x7b' :: (I ++ '\x7d' :: E)) = some A.length :=
    firstIdxOf_append A _ hbrA
  have hlast : lastIdxOf '\x7d' (A ++ '\x7b' :: (I ++ '\x7d' :: E))
      = some (A.length + (I.length + 1)) := by
    have hassoc : A ++ '\x7b' :: (I ++ '\x7d' :: E) = (A ++ '\x7b' :: I) ++ '\x7d' :: E := by
      simp
    rw [hassoc, lastIdxOf_append _ E hclE]
    simp
  have hdrop1 : (A ++ '\x7b' :: (I ++ '\x7d' :: E)).drop A.length
      = '\x7b' :: (I ++ '\x7d' :: E) := List.drop_left A _
  have htake1 : ('\x7b' :: (I ++ '\x7d' :: E)).take (A.length + (I.length + 1) + 1 - A.length)
      = '\x7b' :: I ++ ['\x7d'] := by
    have harith : A.length + (I.length + 1) + 1 - A.length
        = ('\x7b' :: I ++ ['\x7d'] : List Char).length := by
      simp
      omega
    rw [harith]
    have hassoc2 : '\x7b' :: (I ++ '\x7d' :: E) = ('\x7b' :: I ++ ['\x7d']) ++ E := by simp
    rw [hassoc2]
    exact List.take_left _ _
  have hlen1 : ('\x7b' :: I ++ ['\x7d'] : List Char).length = I.length + 2 := by simp
  have hfsd : fnsuffix_to_dict (String.mk ('\x7b' :: I ++ ['\x7d'])) = .ok (asDict items) := by
    have hpd : parseDict (2 * ('\x7b' :: I ++ ['\x7d'] : List Char).length + 4)
        ('\x7b' :: I ++ ['\x7d']) = some (asDict items, text, []) := by
      show (match parseItems (2 * ('\x7b' :: I ++ ['\x7d'] : List Char).length + 3)
          (I ++ ['\x7d']) with
        | some (i2, t2, r2) => some (asDict i2, t2, r2)
        | none => none) = some (asDict items, text, [])
      rw [hlen1, hitems]
    unfold fnsuffix_to_dict
    show (match parseDict (2 * ('\x7b' :: I ++ ['\x7d'] : List Char).length + 4)
        ('\x7b' :: I ++ ['\x7d']) with
      | some (d, _, rest) =>
        if (skipSpaces rest).isEmpty then Except.ok d else Except.error PyErr.parseException
      | none => Except.error PyErr.parseException) = Except.ok (asDict items)
    rw [hpd]
    rfl
  have htakeA : (A ++ '\x7b' :: (I ++ '\x7d' :: E)).take A.length = A := List.take_left A _
  have hdropB : (A ++ '\x7b' :: (I ++ '\x7d' :: E)).drop (A.length + (I.length + 1) + 1)
      = E := by
    have hassoc3 : A ++ '\x7b' :: (I ++ '\x7d' :: E) = (A ++ '\x7b' :: I ++ ['\x7d']) ++ E := by
      simp
    have harith : A.length + (I.length + 1) + 1 = (A ++ '\x7b' :: I ++ ['\x7d']).length := by
      simp
      omega
    rw [hassoc3, harith]
    exact List.drop_left _ _
  unfold parse_standard_filename
  simp only [hdata, hfirst, hlast]
  rw [if_neg (by have := List.length_pos.mpr hIne; omega)]
  simp only [hdrop1, htake1, hfsd, htakeA, hdropB]

/-- Decoding the empty-params shape `name{}ext`. -/
theorem parse_std_nil_generic (A E : List Char) (hbrA : '\x7b' ∉ A) (hbrE : '\x7b' ∉ E)
    (hclE : '\x7d' ∉ E) :
    parse_standard_filename (String.mk (A ++ '\x7b' :: '\x7d' :: E))
      = .ok (String.mk A, String.mk E, []) := by
  have hdata : (String.mk (A ++ '\x7b' :: '\x7d' :: E)).data = A ++ '\x7b' :: '\x7d' :: E := rfl
  have hfirst : firstIdxOf '\x7b' (A ++ '\x7b' :: '\x7d' :: E) = some A.length :=
    firstIdxOf_append A _ hbrA
  have hlast : lastIdxOf '\x7d' (A ++ '\x7b' :: '\x7d' :: E) = some (A.length + 1) := by
    have hassoc : A ++ '\x7b' :: '\x7d' :: E = (A ++ ['\x7b']) ++ '\x7d' :: E := by simp
    rw [hassoc, lastIdxOf_append _ E hclE]
    simp
  unfold parse_standard_filename
  simp only [hdata, hfirst, hlast]
  rw [if_pos trivial]
  rw [splitOnBracePair_exact A E hbrA hbrE]

/-- Decoding the encoder's output for a nonempty good parameter dict
recovers the name and extension. -/
theorem parse_encoded (fn_type : String) (fn_ext : Option String) (params : PyDict)
    (hname : fn_type.data.all (fun c => !(c = '\x7b' || c = '<' || c = '>')) = true)
    (hext : (normExt fn_ext).data.all
      (fun c => !(c = '\x7b' || c = '\x7d' || c = '<' || c = '>')) = true)
    (hgood : goodDict params = true) (hne : params ≠ []) :
    ∃ d, parse_standard_filename (fn_type ++ dict_to_fnsuffix (_convert_listlike_fn_params
        (recKeyMap shortenKey params)) ++ normExt fn_ext)
      = .ok (fn_type, normExt fn_ext, d) := by
  have hd'ne : recKeyMap shortenKey params ≠ [] := recKeyMap_ne_nil hne
  have hsdne : sortPairsPV (recKeyMap shortenKey params) ≠ [] := sortPairsPV_ne_nil hd'ne
  have hsdg : goodDict (sortPairsPV (recKeyMap shortenKey params)) = true :=
    goodDict_sortPairs (recKeyMap_good hgood)
  have hIne : (itemsRender (sortPairsPV (recKeyMap shortenKey params))).data ≠ [] :=
    itemsRender_ne_nil hsdne
  have hbound : pvFuelDict (sortPairsPV (recKeyMap shortenKey params))
      ≤ 2 * ((itemsRender (sortPairsPV (recKeyMap shortenKey params))).data.length + 2) + 3 := by
    have h0 := (fuel_len_all (sizeOf (sortPairsPV (recKeyMap shortenKey params)))).2.2.2
      _ le_rfl hsdg
    omega
  obtain ⟨items, text, hitems⟩ := (parse_render_all
      (sizeOf (sortPairsPV (recKeyMap shortenKey params)))).2.2.2
    _ le_rfl [] _ hsdne hsdg hbound
  have hfneq : (fn_type ++ dict_to_fnsuffix (_convert_listlike_fn_params
      (recKeyMap shortenKey params)) ++ normExt fn_ext)
      = String.mk (fn_type.data
          ++ '\x7b' :: ((itemsRender (sortPairsPV (recKeyMap shortenKey params))).data
            ++ '\x7d' :: (normExt fn_ext).data)) :=
    (strMk_data _).symm.trans (congrArg String.mk (fn_data_shape fn_type fn_ext params))
  refine ⟨pvalKeyMap unshortenKey (asDict items), ?_⟩
  rw [hfneq]
  exact parse_std_generic fn_type.data
    (itemsRender (sortPairsPV (recKeyMap shortenKey params))).data (normExt fn_ext).data
    (fun hc => (nameChars hname _ hc).1 rfl)
    (fun hc => (extChars hext _ hc).1 rfl)
    (fun hc => (extChars hext _ hc).2.1 rfl)
    hIne items text hitems

/-- C7.  Name/extension round-trip of the standard filename convention:
for inputs without pathological characters or types (no `\x7b`, `<`, `>`
in the logical name; no braces or angle brackets in the dotted extension;
a parameter dict of word-character keys and renderable values, dicts
under dicts nonempty, sequences nonempty with at least two elements per
tuple and no dicts or sets below a sequence, sets nonempty with all
elements strings — Python's `sorted` raises `TypeError` on sets mixing
strings with numbers, so only type-homogeneous string sets are admitted;
no long/short parameter-name collision), `default_standard_filename`
succeeds, and `parse_standard_filename` applied to its output recovers
the logical name and the dotted extension exactly; the empty parameter
dict encodes to the literal `\x7b\x7d` between name and extension and
decodes back with empty params. -/
theorem C7_round_trip_name_extension (fn_type : String) (fn_ext : Option String)
    (params : PyDict)
    (hname : fn_type.data.all (fun c => !(c = '\x7b' || c = '<' || c = '>')) = true)
    (hext : (normExt fn_ext).data.all
      (fun c => !(c = '\x7b' || c = '\x7d' || c = '<' || c = '>')) = true)
    (hgood : goodDict params = true)
    (hcol : SHORTEN_PARAM_MAP.any (fun p => hasKey p.1 params && hasKey p.2 params) = false) :
    ∃ fn d, default_standard_filename fn_type fn_ext params = .ok fn ∧
      parse_standard_filename fn = .ok (fn_type, normExt fn_ext, d) ∧
      (params = [] → fn = fn_type ++ "\x7b\x7d" ++ normExt fn_ext ∧ d = []) := by
  cases params with
  | nil =>
    refine ⟨fn_type ++ dict_to_fnsuffix (_convert_listlike_fn_params (recKeyMap shortenKey []))
        ++ normExt fn_ext, [], encode_ok fn_type fn_ext [] hname hext hgood hcol, ?_, ?_⟩
    · have h2 : (fn_type ++ dict_to_fnsuffix (_convert_listlike_fn_params
          (recKeyMap shortenKey ([] : PyDict))) ++ normExt fn_ext).data
          = fn_type.data ++ '\x7b' :: '\x7d' :: (normExt fn_ext).data := by
        rw [fn_data_shape]
        rfl
      have hfneq : (fn_type ++ dict_to_fnsuffix (_convert_listlike_fn_params
          (recKeyMap shortenKey ([] : PyDict))) ++ normExt fn_ext)
          = String.mk (fn_type.data ++ '\x7b' :: '\x7d' :: (normExt fn_ext).data) :=
        (strMk_data _).symm.trans (congrArg String.mk h2)
      rw [hfneq]
      exact parse_std_nil_generic fn_type.data (normExt fn_ext).data
        (fun hc => (nameChars hname _ hc).1 rfl)
        (fun hc => (extChars hext _ hc).1 rfl)
        (fun hc => (extChars hext _ hc).2.1 rfl)
    · intro _
      exact ⟨rfl, rfl⟩
  | cons p ps =>
    obtain ⟨d, hparse⟩ := parse_encoded fn_type fn_ext (p :: ps) hname hext hgood (by simp)
    exact ⟨_, d, encode_ok fn_type fn_ext (p :: ps) hname hext hgood hcol, hparse,
      fun h => absurd h (by simp)⟩

/-- C7, witness: the concrete instance `("test", "test", \x7ba: 1\x7d)`
satisfies every hypothesis and round-trips. -/
theorem C7_round_trip_name_extension_witness :
    ("test".data.all (fun c => !(c = '\x7b' || c = '<' || c = '>')) = true) ∧
    ((normExt (some "test")).data.all
      (fun c => !(c = '\x7b' || c = '\x7d' || c = '<' || c = '>')) = true) ∧
    goodDict [("a", PyVal.int 1)] = true ∧
    SHORTEN_PARAM_MAP.any
      (fun p => hasKey p.1 [("a", PyVal.int 1)] && hasKey p.2 [("a", PyVal.int 1)]) = false ∧
    (∃ fn d, default_standard_filename "test" (some "test") [("a", PyVal.int 1)] = .ok fn ∧
      parse_standard_filename fn = .ok ("test", normExt (some "test"), d) ∧
      ([("a", PyVal.int 1)] = [] →
        fn = "test" ++ "\x7b\x7d" ++ normExt (some "test") ∧ d = [])) :=
  ⟨by decide, by decide, by decide, by decide,
    C7_round_trip_name_extension "test" (some "test") [("a", PyVal.int 1)]
      (by decide) (by decide) (by decide) (by decide)⟩

end PersistableSpec
